import Mathlib

/-!
Verification of the `refactor-prompt` command-line utility.

The repository is a JavaScript tool (`src/refactor-prompt.mjs`, two historical
variants bundled in one file) that scans a source file for function
definitions with a regular expression, sends each function to an LLM chat
endpoint, parses a JSON verdict out of the response, and writes a
`.refactor`-suffixed sibling file.

This file gives a shallow embedding of that code.  Strings are modelled as
`List Char`; the JavaScript regular expressions are modelled by a small
backtracking engine (`RE` / `matchR`) whose candidate list is ordered exactly
as a JavaScript backtracking engine explores alternatives (greedy stars try
longer matches first, alternation tries the left branch first), so that the
head of the candidate list is the JavaScript match.  All recursion is
structural on an explicit fuel argument so every definition evaluates inside
the kernel.  Effects are made explicit: file writes are modelled by returning
the written `(path, contents)` pair, thrown exceptions by `Except`, and the
streamed chat response by an input oracle.
-/

namespace RP

/-- Convert a Lean string literal to the `List Char` string model. -/
def s2l (s : String) : List Char := s.data

/-- JavaScript `String.prototype.slice(a, b)` for `0 ≤ a ≤ b` (code-unit
indices clamp to the string length). -/
def sliceN (c : List Char) (a b : Nat) : List Char := (c.drop a).take (b - a)

/-- Whitespace class used by JavaScript `\s` and `String.prototype.trim`
(ASCII core; the source never relies on Unicode whitespace). -/
def isWsChar (c : Char) : Bool :=
  c == ' ' || c == '\t' || c == '\n' || c == '\r' || c == '\x0b' || c == '\x0c'

/-- JavaScript `\w` word-character class. -/
def isWordChar (c : Char) : Bool :=
  ('a' ≤ c && c ≤ 'z') || ('A' ≤ c && c ≤ 'Z') || ('0' ≤ c && c ≤ '9') || c == '_'

/-- Digit test. -/
def isDigitChar (c : Char) : Bool := '0' ≤ c && c ≤ '9'

/-- `trimStart` of JavaScript `String.prototype.trim`. -/
def trimL (s : List Char) : List Char := s.dropWhile (fun c => isWsChar c)

/-- `trimEnd` of JavaScript `String.prototype.trim`. -/
def trimR (s : List Char) : List Char := (trimL s.reverse).reverse

/-- JavaScript `String.prototype.trim`. -/
def trimB (s : List Char) : List Char := trimR (trimL s)

/-- Does `l` occur at the front of `s`? -/
def hasPrefixL : List Char → List Char → Bool
  | [], _ => true
  | _ :: _, [] => false
  | a :: as, b :: bs => a == b && hasPrefixL as bs

/-- Does `pat` occur anywhere in `s` (JavaScript `String.prototype.includes`)? -/
def containsStr : List Char → List Char → Bool
  | _, [] => false
  | pat, s@(_ :: rest) => hasPrefixL pat s || containsStr pat rest

/-- JavaScript `String.prototype.split(sep)` for a one-character separator. -/
def splitOnChar (sep : Char) : List Char → List (List Char)
  | [] => [[]]
  | c :: rest =>
    let r := splitOnChar sep rest
    if c == sep then [] :: r
    else
      match r with
      | [] => [[c]]
      | h :: t => (c :: h) :: t

/-- JavaScript `Array.prototype.join(sep)` for a one-character separator. -/
def joinSep (sep : Char) : List (List Char) → List Char
  | [] => []
  | [x] => x
  | x :: y :: t => x ++ sep :: joinSep sep (y :: t)

/-- Decimal rendering of a natural number (JavaScript number-to-string for the
small integer indices used in the generated text). -/
def natToDec (n : Nat) : List Char := (Nat.toDigits 10 n)

/-- Index of the first occurrence of character `c` (JavaScript `indexOf`). -/
def idxOfChar (c : Char) : List Char → Option Nat
  | [] => none
  | d :: rest =>
    if d == c then some 0
    else match idxOfChar c rest with
      | some i => some (i + 1)
      | none => none

/-- Index of the last occurrence of character `c` (JavaScript `lastIndexOf`). -/
def lastIdxOfChar (c : Char) (s : List Char) : Option Nat :=
  match idxOfChar c s.reverse with
  | some i => some (s.length - 1 - i)
  | none => none

/-!  ## The regular-expression engine

`RE` is the abstract syntax of the (fragment of) JavaScript regular
expressions used by the source.  `matchR fuel r s caps` returns the list of
`(remaining-input, captures)` pairs for every way `r` can match a prefix of
`s`, ordered exactly in JavaScript backtracking priority: the head of the
list is the match JavaScript produces.  A greedy star stops iterating when an
iteration consumes nothing, exactly as required by the ECMAScript
specification.  The fuel argument only bounds recursion depth; `fuelFor`
below is large enough for every input actually explored. -/

/-- Capture groups: group index paired with the captured text; the most
recent capture of a group is consed at the front (JavaScript keeps the last
capture). -/
def Caps := List (Nat × List Char)

instance : DecidableEq Caps := by
  unfold Caps
  infer_instance

/-- Abstract syntax of the regular-expression fragment used by the source:
character classes, literals, concatenation, alternation, greedy and lazy
star, capture groups, and the multiline end-of-line anchor `$`. -/
inductive RE where
  | eps : RE
  | cls (p : Char → Bool) : RE
  | lit (cs : List Char) : RE
  | seq (a b : RE) : RE
  | alt (a b : RE) : RE
  | starG (r : RE) : RE
  | starL (r : RE) : RE
  | grp (i : Nat) (r : RE) : RE
  | eolm : RE

/-- Right-nested concatenation of a list of regular expressions. -/
def cat : List RE → RE
  | [] => .eps
  | [r] => r
  | r :: rest => .seq r (cat rest)

/-- `r?` (greedy). -/
def optG (r : RE) : RE := .alt r .eps

/-- `r+` (greedy). -/
def plusG (r : RE) : RE := .seq r (.starG r)

/-- Backtracking matcher.  Results are `(remaining input, captures)` pairs in
JavaScript priority order; the head is the JavaScript match. -/
def matchR : Nat → RE → List Char → Caps → List (List Char × Caps)
  | 0, _, _, _ => []
  | _ + 1, .eps, s, cp => [(s, cp)]
  | _ + 1, .eolm, s, cp =>
    match s with
    | [] => [(s, cp)]
    | c :: _ => if c == '\n' then [(s, cp)] else []
  | _ + 1, .cls p, s, cp =>
    match s with
    | [] => []
    | c :: cs => if p c then [(cs, cp)] else []
  | _ + 1, .lit l, s, cp => if hasPrefixL l s then [(s.drop l.length, cp)] else []
  | f + 1, .seq a b, s, cp =>
    (matchR f a s cp).flatMap (fun r => matchR f b r.1 r.2)
  | f + 1, .alt a b, s, cp => matchR f a s cp ++ matchR f b s cp
  | f + 1, .starG r, s, cp =>
    ((matchR f r s cp).flatMap
      (fun q => if q.1.length < s.length then matchR f (.starG r) q.1 q.2 else [])) ++ [(s, cp)]
  | f + 1, .starL r, s, cp =>
    (s, cp) :: ((matchR f r s cp).flatMap
      (fun q => if q.1.length < s.length then matchR f (.starL r) q.1 q.2 else []))
  | f + 1, .grp i r, s, cp =>
    (matchR f r s cp).map (fun q => (q.1, (i, s.take (s.length - q.1.length)) :: q.2))

/-- Structural size of a regular expression, used to compute a generous fuel. -/
def reSize : RE → Nat
  | .eps => 1
  | .cls _ => 1
  | .lit l => l.length + 1
  | .seq a b => reSize a + reSize b + 1
  | .alt a b => reSize a + reSize b + 1
  | .starG r => reSize r + 1
  | .starL r => reSize r + 1
  | .grp _ r => reSize r + 1
  | .eolm => 1

/-- Fuel that over-approximates the recursion depth of any backtracking
exploration of `r` on `s` (each star iteration consumes at least one
character). -/
def fuelFor (r : RE) (s : List Char) : Nat := (reSize r + 2) * (s.length + 2)

/-- The least number of characters any match of `r` consumes. -/
def minLen : RE → Nat
  | .eps => 0
  | .cls _ => 1
  | .lit l => l.length
  | .seq a b => minLen a + minLen b
  | .alt a b => min (minLen a) (minLen b)
  | .starG _ => 0
  | .starL _ => 0
  | .grp _ r => minLen r
  | .eolm => 0

/-- Look up the most recent capture of group `i`. -/
def lookupCap (i : Nat) : Caps → Option (List Char)
  | [] => none
  | (j, t) :: rest => if j == i then some t else lookupCap i rest

/-- One match found by `execFrom`/`matchAllRe`: start offset, length, and
captures, mirroring a JavaScript match object's `index`, `[0].length` and
numbered groups. -/
structure MRes where
  start : Nat
  len : Nat
  cps : Caps
deriving DecidableEq

/-- `execFromAux re c k i`: try to match `re` at offsets `i, i+1, …` (at most
`k` attempts), returning the leftmost match — the semantics of
`RegExp.prototype.exec` resuming from `lastIndex = i`. -/
def execFromAux (re : RE) (c : List Char) : Nat → Nat → Option MRes
  | 0, _ => none
  | k + 1, i =>
    if i ≤ c.length then
      match (matchR (fuelFor re (c.drop i)) re (c.drop i) []).head? with
      | some q => some ⟨i, (c.length - i) - q.1.length, q.2⟩
      | none => execFromAux re c k (i + 1)
    else none

/-- Leftmost match of `re` in `c` at or after offset `pos`. -/
def execFrom (re : RE) (c : List Char) (pos : Nat) : Option MRes :=
  execFromAux re c (c.length + 1 - pos) pos

/-- All matches of a global regex, each search resuming after the previous
match (advancing by one position on an empty match), as
`String.prototype.matchAll`. -/
def matchAllAux (re : RE) (c : List Char) : Nat → Nat → List MRes
  | 0, _ => []
  | k + 1, pos =>
    match execFrom re c pos with
    | none => []
    | some m => m :: matchAllAux re c k (m.start + max m.len 1)

/-- `String.prototype.matchAll` for the regexes the source uses with `/g`. -/
def matchAllRe (re : RE) (c : List Char) : List MRes :=
  matchAllAux re c (c.length + 1) 0

/-- `String.prototype.replace` with a `/g` regex and a plain replacement
string: replace every non-overlapping match left to right. -/
def replaceAllAux (re : RE) (repl : List Char) : Nat → List Char → List Char
  | 0, s => s
  | k + 1, s =>
    match execFrom re s 0 with
    | none => s
    | some m =>
      if m.len = 0 then
        s.take m.start ++ repl ++ (s.drop m.start).take 1 ++
          replaceAllAux re repl k (s.drop (m.start + 1))
      else
        s.take m.start ++ repl ++ replaceAllAux re repl k (s.drop (m.start + m.len))

/-- `String.prototype.replace` with a `/g` regex. -/
def replaceAllRe (re : RE) (repl : List Char) (s : List Char) : List Char :=
  replaceAllAux re repl (s.length + 1) s

/-!  ## The concrete regular expressions of `src/refactor-prompt.mjs` -/

/-- `[^x]` for one excluded character. -/
def clsNot (x : Char) : RE := .cls (fun c => !(c == x))

/-- `[\s\S]` / `[^]`: any character. -/
def clsAny : RE := .cls (fun _ => true)

/-- `.` without the `s` flag: any character except a newline. -/
def clsDot : RE := .cls (fun c => !(c == '\n'))

/-- `\s` as a class. -/
def clsWs : RE := .cls isWsChar

/-- `\w` as a class. -/
def clsWord : RE := .cls isWordChar

/-- The scanner regex of the current variant
(`src/refactor-prompt.mjs` line 105):
`(?:\/\*\*(?:[\s\S]*?)\*\/\s*)*(?:async\s+)?(?:function\s+(\w+)|const\s+(\w+)\s*=(?:\s*async)?\s*(?:function|\([^)]*\)\s*=>))\s*\([^)]*\)\s*\x7b(?:\x7b[^\x7d]*\x7d|[^\x7d])*\x7d`. -/
def functionRegexNew : RE :=
  cat
    [ .starG (cat [.lit (s2l "/**"), .starL clsAny, .lit (s2l "*/"), .starG clsWs])
    , optG (cat [.lit (s2l "async"), plusG clsWs])
    , .alt
        (cat [.lit (s2l "function"), plusG clsWs, .grp 1 (plusG clsWord)])
        (cat
          [ .lit (s2l "const"), plusG clsWs, .grp 2 (plusG clsWord), .starG clsWs
          , .lit (s2l "="), optG (cat [.starG clsWs, .lit (s2l "async")]), .starG clsWs
          , .alt (.lit (s2l "function"))
              (cat [.lit (s2l "("), .starG (clsNot ')'), .lit (s2l ")"), .starG clsWs
                   , .lit (s2l "=>")])
          ])
    , .starG clsWs, .lit (s2l "("), .starG (clsNot ')'), .lit (s2l ")"), .starG clsWs
    , .lit (s2l "\x7b")
    , .starG (.alt (cat [.lit (s2l "\x7b"), .starG (clsNot '\x7d'), .lit (s2l "\x7d")])
        (clsNot '\x7d'))
    , .lit (s2l "\x7d")
    ]

/-- The scanner regex of the older variant
(`src/refactor-prompt.mjs` line 365):
`function\s+(\w+)\s*\([^)]*\)\s*\x7b[^\x7d]*\x7d`. -/
def functionRegexOld : RE :=
  cat
    [ .lit (s2l "function"), plusG clsWs, .grp 1 (plusG clsWord), .starG clsWs
    , .lit (s2l "("), .starG (clsNot ')'), .lit (s2l ")"), .starG clsWs
    , .lit (s2l "\x7b"), .starG (clsNot '\x7d'), .lit (s2l "\x7d")
    ]

/-- The `REFACTOR:` marker-comment regex (line 115):
`\/\*\*\s*\n\s*\*\s*REFACTOR:[^*]*\*\//g`. -/
def refactorCommentRegex : RE :=
  cat
    [ .lit (s2l "/**"), .starG clsWs, .lit (s2l "\n"), .starG clsWs, .lit (s2l "*")
    , .starG clsWs, .lit (s2l "REFACTOR:"), .starG (clsNot '*'), .lit (s2l "*/")
    ]

/-- The import-statement regex of `extractModuleContext` (line 78), `gm` flags:
`import(?:["'\s]*(?:[\w*$\x7b\x7d\n\r\t, ]+)from\s*)?["'\s]["'\s](?:[@\w_\-./]+)["'\s].*?$`. -/
def importRegex : RE :=
  cat
    [ .lit (s2l "import")
    , optG (cat
        [ .starG (.cls (fun c => c == '"' || c == '\'' || isWsChar c))
        , plusG (.cls (fun c => isWordChar c || c == '*' || c == '$' || c == '\x7b' ||
            c == '\x7d' || c == '\n' || c == '\r' || c == '\t' || c == ',' || c == ' '))
        , .lit (s2l "from"), .starG clsWs
        ])
    , .cls (fun c => c == '"' || c == '\'' || isWsChar c)
    , .cls (fun c => c == '"' || c == '\'' || isWsChar c)
    , plusG (.cls (fun c => c == '@' || isWordChar c || c == '_' || c == '-' || c == '.' ||
        c == '/'))
    , .cls (fun c => c == '"' || c == '\'' || isWsChar c)
    , .starL clsDot, .eolm
    ]

/-- The declaration regex of `extractModuleContext` (line 82), `gm` flags:
`(?:const|let|var|type|interface)\s+\w+\s*(?:=\s*(?:\x7b[^\x7d]*\x7d|[^;]+)|\x7b[^\x7d]*\x7d|[^;\x7b]+);?`. -/
def declRegex : RE :=
  cat
    [ .alt (.lit (s2l "const")) (.alt (.lit (s2l "let")) (.alt (.lit (s2l "var"))
        (.alt (.lit (s2l "type")) (.lit (s2l "interface")))))
    , plusG clsWs, plusG clsWord, .starG clsWs
    , .alt
        (cat [.lit (s2l "="), .starG clsWs
             , .alt (cat [.lit (s2l "\x7b"), .starG (clsNot '\x7d'), .lit (s2l "\x7d")])
                 (plusG (clsNot ';'))])
        (.alt (cat [.lit (s2l "\x7b"), .starG (clsNot '\x7d'), .lit (s2l "\x7d")])
          (plusG (.cls (fun c => !(c == ';') && !(c == '\x7b')))))
    , optG (.lit (s2l ";"))
    ]

/-- The JSON-extraction regex of `analyzeFunctionBatch` (line 180):
`\x7b[^]*\x7d` — from the first opening brace to the last closing brace. -/
def jsonBraceRegex : RE :=
  cat [.lit (s2l "\x7b"), .starG clsAny, .lit (s2l "\x7d")]

/-- Code-fence stripper regex `/```json\s*/g` (line 414). -/
def fenceJsonRegex : RE := cat [.lit (s2l "```json"), .starG clsWs]

/-- Code-fence stripper regex `/```\s*/g` (line 415). -/
def fenceRegex : RE := cat [.lit (s2l "```"), .starG clsWs]

/-- Whitespace-run regex `/\s+/g` of `formatRefactorPrompt` (line 229). -/
def wsPlusRegex : RE := plusG clsWs

/-!  ## JavaScript values and `JSON.parse`

The analyzer stores whatever object `JSON.parse` returns, so the verdict is
an arbitrary JSON value, not a checked record.  `JsVal` models the values
involved; `jsUndefined` is JavaScript `undefined`, the result of reading a missing
property. -/

/-- JavaScript values reachable in the analysed code: `undefined`, `null`,
booleans, numbers (kept as their JSON source lexeme), strings, arrays and
objects (field list in source order; later duplicates win on access). -/
inductive JsVal where
  | jsUndefined : JsVal
  | null : JsVal
  | bool (b : Bool) : JsVal
  | num (raw : List Char) : JsVal
  | str (s : List Char) : JsVal
  | arr (elems : List JsVal) : JsVal
  | obj (fields : List (List Char × JsVal)) : JsVal

/-- JSON whitespace (space, tab, newline, carriage return). -/
def isJsonWs (c : Char) : Bool := c == ' ' || c == '\t' || c == '\n' || c == '\r'

/-- Drop leading JSON whitespace. -/
def skipWs (s : List Char) : List Char := s.dropWhile (fun c => isJsonWs c)

/-- Hex digit test. -/
def isHexChar (c : Char) : Bool :=
  isDigitChar c || ('a' ≤ c && c ≤ 'f') || ('A' ≤ c && c ≤ 'F')

/-- Value of a hex digit. -/
def hexVal (c : Char) : Nat :=
  if isDigitChar c then c.toNat - '0'.toNat
  else if 'a' ≤ c && c ≤ 'f' then c.toNat - 'a'.toNat + 10
  else if 'A' ≤ c && c ≤ 'F' then c.toNat - 'A'.toNat + 10
  else 0

/-- Lex a JSON string body after the opening quote; returns the decoded
characters and the remaining input after the closing quote. -/
def lexStr : Nat → List Char → Except Unit (List Char × List Char)
  | 0, _ => .error ()
  | _ + 1, [] => .error ()
  | k + 1, c :: rest =>
    if c == '"' then .ok ([], rest)
    else if c == '\\' then
      match rest with
      | [] => .error ()
      | e :: rest' =>
        if e == 'u' then
          match rest' with
          | h1 :: h2 :: h3 :: h4 :: rest'' =>
            if isHexChar h1 && isHexChar h2 && isHexChar h3 && isHexChar h4 then
              match lexStr k rest'' with
              | .ok (t, rem) =>
                .ok (Char.ofNat (((hexVal h1 * 16 + hexVal h2) * 16 + hexVal h3) * 16 +
                  hexVal h4) :: t, rem)
              | .error _ => .error ()
            else .error ()
          | _ => .error ()
        else
          let dec : Option Char :=
            if e == '"' then some '"'
            else if e == '\\' then some '\\'
            else if e == '/' then some '/'
            else if e == 'b' then some '\x08'
            else if e == 'f' then some '\x0c'
            else if e == 'n' then some '\n'
            else if e == 'r' then some '\r'
            else if e == 't' then some '\t'
            else none
          match dec with
          | some d =>
            match lexStr k rest' with
            | .ok (t, rem) => .ok (d :: t, rem)
            | .error _ => .error ()
          | none => .error ()
    else if c.toNat < 32 then .error ()
    else
      match lexStr k rest with
      | .ok (t, rem) => .ok (c :: t, rem)
      | .error _ => .error ()

/-- Lex a JSON number starting at the current position; returns the raw
lexeme and the remaining input.  Follows the strict JSON grammar
(`-? (0 | [1-9][0-9]*) frac? exp?`). -/
def lexNum (s : List Char) : Except Unit (List Char × List Char) :=
  let (sign, s1) :=
    match s with
    | '-' :: rest => (['-'], rest)
    | _ => (([] : List Char), s)
  match s1 with
  | [] => .error ()
  | d :: rest =>
    if !isDigitChar d then .error ()
    else
      let (intro, s2) :=
        if d == '0' then ([d], rest)
        else (d :: rest.takeWhile (fun c => isDigitChar c),
              rest.dropWhile (fun c => isDigitChar c))
      let (frac, s3) :=
        match s2 with
        | '.' :: f :: r =>
          if isDigitChar f then
            ('.' :: f :: r.takeWhile (fun c => isDigitChar c),
             r.dropWhile (fun c => isDigitChar c))
          else (([] : List Char), s2)
        | _ => (([] : List Char), s2)
      if frac.isEmpty && (match s2 with | '.' :: _ => true | _ => false) then .error ()
      else
        match s3 with
        | e :: r4 =>
          if e == 'e' || e == 'E' then
            let (esign, r5) :=
              match r4 with
              | '+' :: r => (['+'], r)
              | '-' :: r => (['-'], r)
              | _ => (([] : List Char), r4)
            match r5 with
            | g :: _ =>
              if isDigitChar g then
                .ok (sign ++ intro ++ frac ++ e :: esign ++
                  r5.takeWhile (fun c => isDigitChar c),
                  r5.dropWhile (fun c => isDigitChar c))
              else .error ()
            | [] => .error ()
          else .ok (sign ++ intro ++ frac, s3)
        | [] => .ok (sign ++ intro ++ frac, s3)

mutual

/-- Parse one JSON value (fuel-bounded; `parseJson` supplies enough fuel). -/
def parseVal : Nat → List Char → Except Unit (JsVal × List Char)
  | 0, _ => .error ()
  | k + 1, s =>
    match skipWs s with
    | [] => .error ()
    | c :: rest =>
      if c == '\x7b' then
        match skipWs rest with
        | '\x7d' :: rem => .ok (.obj [], rem)
        | _ => match parseMembers k rest with
          | .ok (fs, rem) => .ok (.obj fs, rem)
          | .error _ => .error ()
      else if c == '[' then
        match skipWs rest with
        | ']' :: rem => .ok (.arr [], rem)
        | _ => match parseElems k rest with
          | .ok (es, rem) => .ok (.arr es, rem)
          | .error _ => .error ()
      else if c == '"' then
        match lexStr (rest.length + 1) rest with
        | .ok (t, rem) => .ok (.str t, rem)
        | .error _ => .error ()
      else if c == 't' then
        if hasPrefixL (s2l "rue") rest then .ok (.bool true, rest.drop 3) else .error ()
      else if c == 'f' then
        if hasPrefixL (s2l "alse") rest then .ok (.bool false, rest.drop 4) else .error ()
      else if c == 'n' then
        if hasPrefixL (s2l "ull") rest then .ok (.null, rest.drop 3) else .error ()
      else
        match lexNum (c :: rest) with
        | .ok (raw, rem) => .ok (.num raw, rem)
        | .error _ => .error ()

/-- Parse `"key": value (, "key": value)*` object members. -/
def parseMembers : Nat → List Char → Except Unit (List (List Char × JsVal) × List Char)
  | 0, _ => .error ()
  | k + 1, s =>
    match skipWs s with
    | '"' :: rest =>
      (match lexStr (rest.length + 1) rest with
      | .ok (key, rem) =>
        (match skipWs rem with
        | ':' :: rem2 =>
          (match parseVal k rem2 with
          | .ok (v, rem3) =>
            (match skipWs rem3 with
            | ',' :: rem4 =>
              (match parseMembers k rem4 with
              | .ok (fs, rem5) => .ok ((key, v) :: fs, rem5)
              | .error _ => .error ())
            | '\x7d' :: rem4 => .ok ([(key, v)], rem4)
            | _ => .error ())
          | .error _ => .error ())
        | _ => .error ())
      | .error _ => .error ())
    | _ => .error ()

/-- Parse `value (, value)*` array elements. -/
def parseElems : Nat → List Char → Except Unit (List JsVal × List Char)
  | 0, _ => .error ()
  | k + 1, s =>
    match parseVal k s with
    | .ok (v, rem) =>
      (match skipWs rem with
      | ',' :: rem2 =>
        (match parseElems k rem2 with
        | .ok (es, rem3) => .ok (v :: es, rem3)
        | .error _ => .error ())
      | ']' :: rem2 => .ok ([v], rem2)
      | _ => .error ())
    | .error _ => .error ()

end

/-- `JSON.parse`: parse a complete JSON document (trailing whitespace
allowed, anything else rejected). -/
def parseJson (s : List Char) : Except Unit JsVal :=
  match parseVal (s.length + 1) s with
  | .ok (v, rem) => if (skipWs rem).isEmpty then .ok v else .error ()
  | .error _ => .error ()

/-- Does the raw lexeme of a JSON number denote a nonzero value?  (Zero iff
every mantissa digit is `0`; the exponent cannot make a zero nonzero.) -/
def numNonzero (raw : List Char) : Bool :=
  (raw.takeWhile (fun c => !(c == 'e') && !(c == 'E'))).any
    (fun c => isDigitChar c && !(c == '0'))

/-- JavaScript truthiness of a `JsVal`. -/
def truthy : JsVal → Bool
  | .jsUndefined => false
  | .null => false
  | .bool b => b
  | .num raw => numNonzero raw
  | .str s => !s.isEmpty
  | .arr _ => true
  | .obj _ => true

/-- JavaScript property read `v[key]`.  On objects the most recent duplicate
key wins, as in a parsed JSON object; on every other value the read yields
`undefined`.  (Real JavaScript throws when the base is `null`/`undefined`;
the theorems below never read a property off those, and the claims'
hypotheses keep analyses to parsed JSON objects.) -/
def getProp (v : JsVal) (key : List Char) : JsVal :=
  match v with
  | .obj fs => (fs.foldl (fun acc f => if f.1 = key then some f.2 else acc) none).getD .jsUndefined
  | _ => .jsUndefined

/-!  ## `extractModuleContext` (src/refactor-prompt.mjs lines 69–93) -/

/-- JavaScript `String.prototype.slice(0, n)` with a possibly negative or
over-long end index. -/
def jsSliceTo (c : List Char) (n : Int) : List Char :=
  if n < 0 then c.take (c.length - min c.length n.natAbs) else c.take n.toNat

/-- Module context returned by `extractModuleContext`: the import statements
and top-level declarations found before the function, and the whole preceding
slice. -/
structure ModuleContext where
  imports : List (List Char)
  declarations : List (List Char)
  fullContext : List Char
deriving DecidableEq

/-- A dynamically typed JavaScript argument, as coarse as the `typeof`
guard of `extractModuleContext` needs: a string, a number, or anything
else. -/
inductive JsArg where
  | str (s : List Char) : JsArg
  | num (n : Int) : JsArg
  | other : JsArg
deriving DecidableEq

/-- Is the argument a string (`typeof x === 'string'`)? -/
def JsArg.isStr : JsArg → Bool
  | .str _ => true
  | _ => false

/-- Is the argument a number (`typeof x === 'number'`)? -/
def JsArg.isNum : JsArg → Bool
  | .num _ => true
  | _ => false

/-- The body of `extractModuleContext` after the argument guard: slice the
content up to the offset, collect trimmed import-regex and declaration-regex
matches. -/
def extractModuleContextCore (content : List Char) (functionEndIndex : Int) : ModuleContext :=
  let contextCode := jsSliceTo content functionEndIndex
  { imports := (matchAllRe importRegex contextCode).map
      (fun m => trimB (sliceN contextCode m.start (m.start + m.len)))
  , declarations := (matchAllRe declRegex contextCode).map
      (fun m => trimB (sliceN contextCode m.start (m.start + m.len)))
  , fullContext := contextCode }

/-- `extractModuleContext` (lines 69–93): throws on a non-string content or a
non-number offset, otherwise returns the context derived from the slice
before the offset.  The inner `try` never fires because the body is total. -/
def extractModuleContext (content : JsArg) (functionEndIndex : JsArg) :
    Except (List Char) ModuleContext :=
  match content, functionEndIndex with
  | .str s, .num n => .ok (extractModuleContextCore s n)
  | _, _ =>
    .error (s2l "Invalid arguments: content must be string and functionEndIndex must be number")

/-!  ## The scanner `extractFunctions` (lines 101–136 and 363–388)

`fs.readFile` is modelled by taking the file content directly as input. -/

/-- One scanned function of the current variant: the fields of the record
pushed at lines 118–125. -/
structure FunctionRec where
  name : List Char
  code : List Char
  preText : List Char
  startIndex : Nat
  endIndex : Nat
  moduleContext : ModuleContext
deriving DecidableEq

/-- The scan loop of the current variant (lines 110–126).  Each element pairs
the loop's local `preText` gap (`content.slice(lastIndex, match.index)`) with
the record built from the match.  The fuel only totalizes the loop: the
source loop advances `lastIndex` past each match and `functionRegexNew`
cannot match the empty string (`minLen_functionRegexNew` below), so
`content.length + 1` iterations are always enough. -/
def scanLoop (content : List Char) : Nat → Nat → List (List Char × FunctionRec)
  | 0, _ => []
  | k + 1, pos =>
    match execFrom functionRegexNew content pos with
    | none => []
    | some m =>
      let gap := sliceN content pos m.start
      let name := ((lookupCap 1 m.cps).getD ((lookupCap 2 m.cps).getD []))
      let refactorComments := (matchAllRe refactorCommentRegex gap).map
        (fun q => sliceN gap q.start (q.start + q.len))
      (gap,
        { name := name
        , code := sliceN content m.start (m.start + m.len)
        , preText := (refactorComments.getLast?).getD []
        , startIndex := m.start
        , endIndex := m.start + m.len
        , moduleContext := extractModuleContextCore content (Int.ofNat m.start) }) ::
        scanLoop content k (m.start + m.len)

/-- Final value of the loop's `lastIndex` variable: the end of the last
match, or the default when no match was found. -/
def lastEnd : List (List Char × FunctionRec) → Nat → Nat
  | [], d => d
  | p :: rest, _ => lastEnd rest p.2.endIndex

/-- Stable insertion of a record into a list ascending by `startIndex`. -/
def insertAscF (x : FunctionRec) : List FunctionRec → List FunctionRec
  | [] => [x]
  | y :: ys => if x.startIndex ≤ y.startIndex then x :: y :: ys else y :: insertAscF x ys

/-- The `functions.sort((a, b) => a.startIndex - b.startIndex)` call of line
129: a stable sort ascending by `startIndex`. -/
def sortAscF (l : List FunctionRec) : List FunctionRec := l.foldr insertAscF []

/-- Result of `extractFunctions`. -/
structure ScanResult where
  functions : List FunctionRec
  postText : List Char
  originalContent : List Char
deriving DecidableEq

/-- `extractFunctions` of the current variant (lines 101–136). -/
def extractFunctions (content : List Char) : ScanResult :=
  let frs := scanLoop content (content.length + 1) 0
  { functions := sortAscF (frs.map (fun p => p.2))
  , postText := content.drop (lastEnd frs 0)
  , originalContent := content }

/-- One scanned function of the older variant (lines 375–381): `preText`
stores the whole gap since the previous match. -/
structure FunctionRecOld where
  name : List Char
  code : List Char
  preText : List Char
  startIndex : Nat
  endIndex : Nat
deriving DecidableEq

/-- The scan loop of the older variant (lines 370–382). -/
def scanLoopOld (content : List Char) : Nat → Nat → List FunctionRecOld
  | 0, _ => []
  | k + 1, pos =>
    match execFrom functionRegexOld content pos with
    | none => []
    | some m =>
      { name := (lookupCap 1 m.cps).getD []
      , code := sliceN content m.start (m.start + m.len)
      , preText := sliceN content pos m.start
      , startIndex := m.start
      , endIndex := m.start + m.len } ::
        scanLoopOld content k (m.start + m.len)

/-- Final `lastIndex` of the older loop. -/
def lastEndOld : List FunctionRecOld → Nat → Nat
  | [], d => d
  | r :: rest, _ => lastEndOld rest r.endIndex

/-- Result of the older `extractFunctions`. -/
structure ScanResultOld where
  functions : List FunctionRecOld
  postText : List Char
  originalContent : List Char
deriving DecidableEq

/-- `extractFunctions` of the older variant (lines 363–388). -/
def extractFunctionsV0 (content : List Char) : ScanResultOld :=
  let frs := scanLoopOld content (content.length + 1) 0
  { functions := frs
  , postText := content.drop (lastEndOld frs 0)
  , originalContent := content }

/-- In-order concatenation of each scanned pair's gap and function span
(current variant). -/
def concatPre (l : List (List Char × FunctionRec)) : List Char :=
  l.foldr (fun p acc => p.1 ++ p.2.code ++ acc) []

/-- In-order concatenation of each record's `preText` gap and function span
(older variant, where the gap is stored on the record). -/
def concatPreOld (l : List FunctionRecOld) : List Char :=
  l.foldr (fun r acc => r.preText ++ r.code ++ acc) []

/-!  ## `buildAnalysisPrompt` (lines 37–50) -/

/-- `DEFAULT_ANALYSIS_PROMPT` of the current variant (lines 10–35),
transcribed verbatim. -/
def DEFAULT_ANALYSIS_PROMPT : List Char := s2l
  ("Analyze this function in the context of its module and suggest safe refactoring if needed.\nConsider:\n\n1. Module Context:\n- Available imports and dependencies\n- Module-level variables and configurations\n- Related utility functions and helpers\n- Type definitions and interfaces\n\n2. Current Behavior:\n- Document existing functionality and dependencies\n- List external APIs and side effects \n- Identify key usage patterns that must be preserved\n\n3. Code Quality:\n- Complexity and documentation\n- Error handling and edge cases\n- Performance and security concerns\n- Common bugs (off-by-one, type issues)\n\n4. Refactoring (if needed):\n- What must stay the same\n- Step-by-step changes that won't break existing behavior\n- Any unavoidable breaking changes\n\nPlease ensure suggestions maintain backward compatibility unless explicitly noted.")

/-- The fixed JSON-format instruction appended by `buildAnalysisPrompt`
(lines 45–49). -/
def jsonFormatInstruction : List Char := s2l
  ("\n\nReturn your analysis in this exact JSON format without any markdown formatting or code blocks:\n\x7b\n  \"needsRefactor\": boolean,\n  \"refactorPrompt\": string or null\n\x7d")

/-- `buildAnalysisPrompt` (lines 37–50).  The argument is the optional
command-line requirement; `none` models `undefined` and the empty string is
falsy, exactly as the source's conditional template. -/
def buildAnalysisPrompt (userFeatureRequest : Option (List Char)) : List Char :=
  let featureRequest :=
    match userFeatureRequest with
    | some s => if s.isEmpty then [] else s2l "\nAdditional requirements:\n" ++ s
    | none => []
  DEFAULT_ANALYSIS_PROMPT ++ featureRequest ++ jsonFormatInstruction

/-!  ## `analyzeFunctionBatch` (lines 144–199)

The chat capability is a collaborator: the accumulated streamed response for
the `i`-th batch element is supplied by an oracle `resp : Nat → List Char`.
The per-function `try`/`catch` turns any extraction or parse failure into the
default verdict; a successfully parsed JSON value is stored as-is. -/

/-- A function record together with the analysis attached by the analyzer
(the `{ ...functionData, analysis }` spread). -/
structure AnalyzedFunctionRec where
  fn : FunctionRec
  analysis : JsVal

/-- The default verdict `{ needsRefactor: false, refactorPrompt: null }`
(lines 192–194). -/
def defaultAnalysis : JsVal :=
  .obj [(s2l "needsRefactor", .bool false), (s2l "refactorPrompt", .null)]

/-- The JSON value the analyzer attaches for one accumulated response:
`match(/\x7b[^]*\x7d/)` then `JSON.parse`, with the surrounding `catch`
mapping every failure to the default verdict (lines 180–195). -/
def extractAnalysis (analysisResult : List Char) : JsVal :=
  match execFrom jsonBraceRegex analysisResult 0 with
  | none => defaultAnalysis
  | some m =>
    match parseJson (sliceN analysisResult m.start (m.start + m.len)) with
    | .ok v => v
    | .error _ => defaultAnalysis

/-- `analyzeFunctionBatch` (lines 144–199): guard, then a `Promise.all` over
the batch — modelled as a map that pairs the `i`-th input with the `i`-th
oracle response, which is exactly the input-order result list `Promise.all`
resolves to. -/
def analyzeFunctionBatch (functionBatch : List FunctionRec) (analysisPrompt : List Char)
    (resp : Nat → List Char) : Except (List Char) (List AnalyzedFunctionRec) :=
  if functionBatch.isEmpty || analysisPrompt.isEmpty then
    .error (s2l
      "Invalid arguments: functionBatch must be non-empty array and analysisPrompt must be string")
  else
    .ok (functionBatch.enum.map (fun p => ⟨p.2, extractAnalysis (resp p.1)⟩))

/-!  ## The response parser of the older `analyzeFunctionForRefactoring`
(lines 412–434) -/

/-- The parsing tail of `analyzeFunctionForRefactoring`: strip
` ```json `-fences, strip ` ``` `-fences, trim, take the substring from the
first `\x7b` to the last `\x7d` inclusive, `JSON.parse` it; every failure is
caught and yields the default verdict. -/
def analyzeFunctionForRefactoring (analysisResult : List Char) : JsVal :=
  let cleanedResult :=
    trimB (replaceAllRe fenceRegex [] (replaceAllRe fenceJsonRegex [] analysisResult))
  match idxOfChar '\x7b' cleanedResult, lastIdxOfChar '\x7d' cleanedResult with
  | some st, some en =>
    match parseJson (sliceN cleanedResult st (en + 1)) with
    | .ok v => v
    | .error _ => defaultAnalysis
  | _, _ => defaultAnalysis

/-!  ## The refactor-file generators (lines 208–248 and 437–469)

`fs.writeFile` is modelled by returning the written `(path, contents)` pair:
`some (path, contents)` means the file at `path` is written with `contents`,
`none` means nothing is written.  A `.error` result models a thrown
exception, which also writes nothing. -/

/-- `path.dirname` (posix). -/
def pathDirname (p : List Char) : List Char :=
  match lastIdxOfChar '/' p with
  | none => s2l "."
  | some 0 => s2l "/"
  | some i => p.take i

/-- `path.basename` (posix, one argument). -/
def pathBasename (p : List Char) : List Char :=
  match lastIdxOfChar '/' p with
  | none => p
  | some i => p.drop (i + 1)

/-- `path.extname` (posix). -/
def pathExtname (p : List Char) : List Char :=
  let b := pathBasename p
  match lastIdxOfChar '.' b with
  | none => []
  | some 0 => []
  | some i => b.drop i

/-- `path.basename(p, ext)`: the basename with a trailing `ext` removed. -/
def pathBasenameExt (p ext : List Char) : List Char :=
  let b := pathBasename p
  if ext.length < b.length && b.drop (b.length - ext.length) = ext then
    b.take (b.length - ext.length)
  else b

/-- The `.refactor` sibling path built by both generators:
`path.join(dirname, basename-without-ext + ".refactor" + ext)` (posix join,
with `.`-relative paths normalised as node does). -/
def mkRefactorPath (filePath : List Char) : List Char :=
  let ext := pathExtname filePath
  let name := pathBasenameExt filePath ext ++ s2l ".refactor" ++ ext
  let d := pathDirname filePath
  if d = s2l "." then name else d ++ '/' :: name

/-- The line-flattening of `formatRefactorPrompt` (lines 224–229): split on
newlines, drop lines mentioning `Module Context` or `javascript` and blank
lines, trim each, join with spaces and collapse whitespace runs. -/
def flattenPrompt (p : List Char) : List Char :=
  replaceAllRe wsPlusRegex (s2l " ")
    (joinSep ' '
      (((splitOnChar '\n' p).filter
          (fun line => !containsStr (s2l "Module Context") line &&
            !(trimB line).isEmpty && !containsStr (s2l "javascript") line)).map trimB))

/-- `formatRefactorPrompt` (lines 223–232).  Calling `.split` on a
non-string `refactorPrompt` throws, which the surrounding `try` of
`generateRefactorFile` later wraps. -/
def formatRefactorPrompt (r : AnalyzedFunctionRec) (index : Nat) :
    Except (List Char) (List Char) :=
  match getProp r.analysis (s2l "refactorPrompt") with
  | .str p =>
    .ok (natToDec (index + 1) ++ s2l ". Function '" ++ r.fn.name ++ s2l "': " ++ flattenPrompt p)
  | .null => .error (s2l "Cannot read properties of null (reading 'split')")
  | .jsUndefined => .error (s2l "Cannot read properties of undefined (reading 'split')")
  | _ => .error (s2l "result.analysis.refactorPrompt.split is not a function")

/-- Stable insertion into a list ascending by `startIndex`. -/
def insertAscA (x : AnalyzedFunctionRec) :
    List AnalyzedFunctionRec → List AnalyzedFunctionRec
  | [] => [x]
  | y :: ys =>
    if x.fn.startIndex ≤ y.fn.startIndex then x :: y :: ys else y :: insertAscA x ys

/-- The `sort((a, b) => a.startIndex - b.startIndex)` of line 212. -/
def sortAscA (l : List AnalyzedFunctionRec) : List AnalyzedFunctionRec :=
  l.foldr insertAscA []

/-- Stable insertion into a list descending by `startIndex`. -/
def insertDescA (x : AnalyzedFunctionRec) :
    List AnalyzedFunctionRec → List AnalyzedFunctionRec
  | [] => [x]
  | y :: ys =>
    if y.fn.startIndex ≤ x.fn.startIndex then x :: y :: ys else y :: insertDescA x ys

/-- The `sort((a, b) => b.startIndex - a.startIndex)` of line 447. -/
def sortDescA (l : List AnalyzedFunctionRec) : List AnalyzedFunctionRec :=
  l.foldr insertDescA []

/-- `generateRefactorFile`, consolidated variant (lines 208–248): filter to
flagged records, sort ascending, return `null` (write nothing) when nothing
is flagged, otherwise format one instruction line per flagged record, build
the output document and write it to the `.refactor` sibling path.  Any
exception is re-thrown wrapped with `Failed to generate refactor file: `. -/
def generateRefactorFile (filePath : List Char)
    (analysisResults : List AnalyzedFunctionRec) (originalContent : List Char) :
    Except (List Char) (Option (List Char × List Char)) :=
  let needsRefactoring :=
    sortAscA (analysisResults.filter
      (fun r => truthy (getProp r.analysis (s2l "needsRefactor"))))
  if needsRefactoring.isEmpty then .ok none
  else
    match needsRefactoring.enum.mapM (fun p => formatRefactorPrompt p.2 p.1) with
    | .error e => .error (s2l "Failed to generate refactor file: " ++ e)
    | .ok promptLines =>
      .ok (some (mkRefactorPath filePath,
        s2l "Refactor the following file, focusing on these " ++
          natToDec needsRefactoring.length ++ s2l " functions:\n\n" ++
          joinSep '\n' promptLines ++ s2l "\n\nFILE CONTENT:\n" ++ originalContent ++
          s2l "\n\nReturn only the complete refactored code, maintaining the same exports and core functionality."))

/-- The comment block spliced above one flagged function (lines 453–458). -/
def refactorCommentOf (p : List Char) : List Char :=
  s2l "\n/**\n * REFACTOR:\n" ++
    joinSep '\n' ((splitOnChar '\n' p).map (fun l => s2l " * " ++ trimB l)) ++
    s2l "\n */\n"

/-- The insertion loop of the spliced variant (lines 451–465): for each
record, if `refactorPrompt` is truthy, splice the comment block in front of
`startIndex`; a truthy non-string `refactorPrompt` makes `.split` throw,
which this variant does not catch. -/
def spliceLoop (rs : List AnalyzedFunctionRec) (c : List Char) :
    Except (List Char) (List Char) :=
  match rs with
  | [] => .ok c
  | r :: rest =>
    let v := getProp r.analysis (s2l "refactorPrompt")
    if truthy v then
      match v with
      | .str p =>
        spliceLoop rest
          (c.take r.fn.startIndex ++ refactorCommentOf p ++ c.drop r.fn.startIndex)
      | _ => .error (s2l "result.analysis.refactorPrompt.split is not a function")
    else spliceLoop rest c

/-- `generateRefactorFile`, spliced variant (lines 437–469): sort all
records descending by `startIndex`, filter to flagged ones, splice a comment
block above each, and always write the resulting document to the `.refactor`
sibling path — including the unmodified original content when no record is
flagged. -/
def generateRefactorFileSpliced (filePath : List Char)
    (analysisResults : List AnalyzedFunctionRec) (originalContent : List Char) :
    Except (List Char) (Option (List Char × List Char)) :=
  let sortedResults :=
    (sortDescA analysisResults).filter
      (fun r => truthy (getProp r.analysis (s2l "needsRefactor")))
  match spliceLoop sortedResults originalContent with
  | .ok c => .ok (some (mkRefactorPath filePath, c))
  | .error e => .error e

/-!  ## Specification-side definition for the spliced output

`splicedSpec c prev rs` renders the spec's description of the spliced
document for an ascending list of flagged records: the original text from
`prev` up to each record's `startIndex`, then that record's comment block,
and finally the rest of the original content.  The refinement theorem for
the spliced generator proves the implementation equal to this. -/

/-- The `refactorPrompt` string of a record whose prompt is a string. -/
def promptStr (r : AnalyzedFunctionRec) : List Char :=
  match getProp r.analysis (s2l "refactorPrompt") with
  | .str p => p
  | _ => []

/-- Ascending rendition of the spliced document (spec-side description). -/
def splicedSpec (c : List Char) : Nat → List AnalyzedFunctionRec → List Char
  | prev, [] => c.drop prev
  | prev, r :: rest =>
    sliceN c prev r.fn.startIndex ++ refactorCommentOf (promptStr r) ++
      splicedSpec c r.fn.startIndex rest

/-!  ## Concrete inputs used by the witness theorems -/

/-- A concrete scanned function record. -/
def sampleFn : FunctionRec :=
  { name := s2l "f"
  , code := s2l "function f()\x7b\x7d"
  , preText := []
  , startIndex := 0
  , endIndex := 14
  , moduleContext := { imports := [], declarations := [], fullContext := [] } }

/-- A concrete flagged record whose `refactorPrompt` is `null`. -/
def sampleFlaggedNull : AnalyzedFunctionRec :=
  ⟨sampleFn, .obj [(s2l "needsRefactor", .bool true), (s2l "refactorPrompt", .null)]⟩

/-- A concrete record placed at offset 5 of a 20-character file, flagged with
a string prompt. -/
def sampleFlagged : AnalyzedFunctionRec :=
  ⟨{ name := s2l "f"
   , code := s2l "function f()\x7b\x7d"
   , preText := []
   , startIndex := 5
   , endIndex := 19
   , moduleContext := { imports := [], declarations := [], fullContext := [] } }
  , .obj [(s2l "needsRefactor", .bool true), (s2l "refactorPrompt", .str (s2l "fix"))]⟩

end RP

/-!  # Theorems -/

namespace RP

set_option maxRecDepth 8000

/-!  ## General helper lemmas -/

theorem hasPrefixL_append_self (p t : List Char) : hasPrefixL p (p ++ t) = true := by
  induction p with
  | nil => rfl
  | cons c cs ih => simp [hasPrefixL, ih]

theorem hasPrefixL_length_le {p s : List Char} (h : hasPrefixL p s = true) :
    p.length ≤ s.length := by
  induction p generalizing s with
  | nil => simp
  | cons c cs ih =>
    cases s with
    | nil => simp [hasPrefixL] at h
    | cons d ds =>
      simp only [hasPrefixL, Bool.and_eq_true] at h
      simpa [Nat.succ_le_succ_iff] using ih h.2

theorem mem_insertAscA {a x : AnalyzedFunctionRec} {l : List AnalyzedFunctionRec} :
    a ∈ insertAscA x l ↔ a = x ∨ a ∈ l := by
  induction l with
  | nil => simp [insertAscA]
  | cons y ys ih =>
    simp only [insertAscA]
    split
    · simp [or_comm, or_assoc, or_left_comm]
    · simp [ih]
      tauto

theorem mem_sortAscA {a : AnalyzedFunctionRec} {l : List AnalyzedFunctionRec} :
    a ∈ sortAscA l ↔ a ∈ l := by
  induction l with
  | nil => simp [sortAscA]
  | cons y ys ih =>
    show a ∈ insertAscA y (sortAscA ys) ↔ _
    rw [mem_insertAscA]
    simp [ih]

theorem enumFrom_mapM_error (f : AnalyzedFunctionRec → Nat → Except (List Char) (List Char)) :
    ∀ (l : List AnalyzedFunctionRec) (n : Nat),
      (∃ r ∈ l, ∀ i, ∃ e, f r i = .error e) →
      ∃ e, (List.enumFrom n l).mapM (fun p => f p.2 p.1) = .error e := by
  intro l
  induction l with
  | nil => intro n h; simp at h
  | cons y ys ih =>
    intro n h
    rw [List.enumFrom_cons, List.mapM_cons]
    rcases h with ⟨r, hr, he⟩
    rcases List.mem_cons.mp hr with h1 | h2
    · subst h1
      rcases he n with ⟨e, hfe⟩
      exact ⟨e, by rw [hfe]; rfl⟩
    · cases hfy : f y n with
      | error e => exact ⟨e, rfl⟩
      | ok b =>
        rcases ih (n + 1) ⟨r, h2, he⟩ with ⟨e, hme⟩
        refine ⟨e, ?_⟩
        rw [hme]
        rfl

/-!  ## C9: the `extractModuleContext` argument contract -/

/-- C9.  `extractModuleContext` throws (the error propagates; nothing is
defaulted) whenever the first argument is not a string or the second is not
a number, and for a string and a number it returns normally with the
imports, declarations, and full context all derived from the slice of the
content before the offset. -/
theorem extract_module_context_contract :
    (∀ a b : JsArg, (a.isStr && b.isNum) = false →
      extractModuleContext a b = .error
        (s2l "Invalid arguments: content must be string and functionEndIndex must be number")) ∧
    (∀ (s : List Char) (n : Int),
      extractModuleContext (.str s) (.num n) = .ok
        { imports := (matchAllRe importRegex (jsSliceTo s n)).map
            (fun m => trimB (sliceN (jsSliceTo s n) m.start (m.start + m.len)))
        , declarations := (matchAllRe declRegex (jsSliceTo s n)).map
            (fun m => trimB (sliceN (jsSliceTo s n) m.start (m.start + m.len)))
        , fullContext := jsSliceTo s n }) := by
  constructor
  · intro a b h
    cases a <;> cases b <;> simp [JsArg.isStr, JsArg.isNum] at h ⊢ <;> rfl
  · intro s n
    rfl

/-- Witness for C9 at concrete arguments: a non-string content is rejected
with the contract error, and a concrete string/number pair succeeds. -/
theorem extract_module_context_contract_witness :
    ((JsArg.other.isStr && (JsArg.num 3).isNum) = false ∧
      extractModuleContext .other (.num 3) = .error
        (s2l "Invalid arguments: content must be string and functionEndIndex must be number")) ∧
    extractModuleContext (.str (s2l "const a = 1;")) (.num 12) = .ok
      { imports := (matchAllRe importRegex (jsSliceTo (s2l "const a = 1;") 12)).map
          (fun m => trimB (sliceN (jsSliceTo (s2l "const a = 1;") 12) m.start (m.start + m.len)))
      , declarations := (matchAllRe declRegex (jsSliceTo (s2l "const a = 1;") 12)).map
          (fun m => trimB (sliceN (jsSliceTo (s2l "const a = 1;") 12) m.start (m.start + m.len)))
      , fullContext := jsSliceTo (s2l "const a = 1;") 12 } :=
  ⟨⟨by decide, extract_module_context_contract.1 .other (.num 3) (by decide)⟩,
    extract_module_context_contract.2 (s2l "const a = 1;") 12⟩

/-!  ## C8: `buildAnalysisPrompt` -/

/-- C8.  `buildAnalysisPrompt` is a pure function of its argument (it is a
Lean function).  For a non-empty requirement the result is exactly the fixed
rubric, a newline, the `Additional requirements:` heading, the requirement
verbatim, and the fixed JSON-format instruction; for `undefined` or the
empty string the heading does not occur anywhere in the result; and in every
case the result ends with the fixed JSON-format instruction. -/
theorem build_analysis_prompt_spec :
    (∀ s : List Char, s ≠ [] →
      buildAnalysisPrompt (some s) =
        (DEFAULT_ANALYSIS_PROMPT ++ ['\n']) ++ s2l "Additional requirements:\n" ++ s ++
          jsonFormatInstruction) ∧
    (buildAnalysisPrompt none = DEFAULT_ANALYSIS_PROMPT ++ jsonFormatInstruction ∧
      buildAnalysisPrompt (some []) = DEFAULT_ANALYSIS_PROMPT ++ jsonFormatInstruction ∧
      containsStr (s2l "Additional requirements")
        (DEFAULT_ANALYSIS_PROMPT ++ jsonFormatInstruction) = false) ∧
    (∀ u, ∃ pre, buildAnalysisPrompt u = pre ++ jsonFormatInstruction) := by
  refine ⟨?_, ⟨rfl, rfl, by decide⟩, ?_⟩
  · intro s hs
    have h1 : s.isEmpty = false := by simpa using hs
    have h2 : s2l "\nAdditional requirements:\n" = '\n' :: s2l "Additional requirements:\n" := rfl
    simp [buildAnalysisPrompt, h1, h2, List.append_assoc]
  · intro u
    cases u with
    | none => exact ⟨DEFAULT_ANALYSIS_PROMPT, rfl⟩
    | some s =>
      refine ⟨DEFAULT_ANALYSIS_PROMPT ++
        (if s.isEmpty then [] else s2l "\nAdditional requirements:\n" ++ s), ?_⟩
      simp [buildAnalysisPrompt, List.append_assoc]

/-- Witness for C8 at the concrete requirement `Check types`. -/
theorem build_analysis_prompt_spec_witness :
    s2l "Check types" ≠ [] ∧
    buildAnalysisPrompt (some (s2l "Check types")) =
      (DEFAULT_ANALYSIS_PROMPT ++ ['\n']) ++ s2l "Additional requirements:\n" ++
        s2l "Check types" ++ jsonFormatInstruction :=
  ⟨by decide, build_analysis_prompt_spec.1 (s2l "Check types") (by decide)⟩


/-!  ## C2: batch analysis failure handling (corrected) -/

/-- Counterexample for C2 as stated.  A response whose JSON parses but whose
`needsRefactor` key is mistyped (the string `"false"`) is **not** replaced by
the default verdict: the parsed object is stored as-is, and it is observably
different from the default — its `needsRefactor` property is truthy, so the
generator would treat the function as flagged. -/
theorem batch_mistyped_keys_not_defaulted :
    analyzeFunctionBatch [sampleFn] (s2l "p")
        (fun _ => s2l "\x7b\"needsRefactor\": \"false\"\x7d") =
      .ok [⟨sampleFn, .obj [(s2l "needsRefactor", .str (s2l "false"))]⟩] ∧
    truthy (getProp (JsVal.obj [(s2l "needsRefactor", .str (s2l "false"))])
      (s2l "needsRefactor")) = true ∧
    truthy (getProp defaultAnalysis (s2l "needsRefactor")) = false :=
  ⟨rfl, rfl, rfl⟩

/-- C2 (amended).  For a non-empty batch and prompt the call returns
normally with one result per input function.  A function's analysis is the
default `\x7bneedsRefactor: false, refactorPrompt: null\x7d` exactly when brace
extraction or JSON parsing of its response fails; a successfully parsed JSON
value is stored as-is even if the two expected keys are missing or
mistyped. -/
theorem batch_default_on_parse_failure_only
    (batch : List FunctionRec) (prompt : List Char) (resp : Nat → List Char)
    (hb : batch ≠ []) (hp : prompt ≠ []) :
    ∃ out, analyzeFunctionBatch batch prompt resp = .ok out ∧
      out.length = batch.length ∧
      ∀ (i : Nat) (h : i < out.length),
        out[i].analysis = extractAnalysis (resp i) ∧
        (execFrom jsonBraceRegex (resp i) 0 = none → out[i].analysis = defaultAnalysis) ∧
        (∀ m, execFrom jsonBraceRegex (resp i) 0 = some m →
          parseJson (sliceN (resp i) m.start (m.start + m.len)) = .error () →
          out[i].analysis = defaultAnalysis) ∧
        (∀ m v, execFrom jsonBraceRegex (resp i) 0 = some m →
          parseJson (sliceN (resp i) m.start (m.start + m.len)) = .ok v →
          out[i].analysis = v) := by
  have hb' : batch.isEmpty = false := by simpa using hb
  have hp' : prompt.isEmpty = false := by simpa using hp
  refine ⟨batch.enum.map (fun p => ⟨p.2, extractAnalysis (resp p.1)⟩), ?_, ?_, ?_⟩
  · simp [analyzeFunctionBatch, hb', hp']
  · simp
  · intro i h
    have h' : i < batch.enum.length := by simpa using h
    have key : (batch.enum.map
        (fun p => (⟨p.2, extractAnalysis (resp p.1)⟩ : AnalyzedFunctionRec)))[i].analysis =
        extractAnalysis (resp i) := by
      simp [List.getElem_map, List.getElem_enum]
    refine ⟨key, ?_, ?_, ?_⟩
    · intro he
      rw [key]
      simp [extractAnalysis, he]
    · intro m hm hperr
      rw [key]
      simp [extractAnalysis, hm, hperr]
    · intro m v hm hpok
      rw [key]
      simp [extractAnalysis, hm, hpok]

/-- Witness for the amended C2 at a one-element batch whose response has no
brace pair: the analysis is the default verdict. -/
theorem batch_default_on_parse_failure_only_witness :
    ([sampleFn] ≠ [] ∧ s2l "p" ≠ []) ∧
    ∃ out, analyzeFunctionBatch [sampleFn] (s2l "p") (fun _ => s2l "no json here") = .ok out ∧
      out.length = [sampleFn].length ∧
      ∀ (i : Nat) (h : i < out.length),
        out[i].analysis = extractAnalysis (s2l "no json here") ∧
        (execFrom jsonBraceRegex (s2l "no json here") 0 = none →
          out[i].analysis = defaultAnalysis) ∧
        (∀ m, execFrom jsonBraceRegex (s2l "no json here") 0 = some m →
          parseJson (sliceN (s2l "no json here") m.start (m.start + m.len)) = .error () →
          out[i].analysis = defaultAnalysis) ∧
        (∀ m v, execFrom jsonBraceRegex (s2l "no json here") 0 = some m →
          parseJson (sliceN (s2l "no json here") m.start (m.start + m.len)) = .ok v →
          out[i].analysis = v) :=
  ⟨⟨by simp, by decide⟩,
    batch_default_on_parse_failure_only [sampleFn] (s2l "p") (fun _ => s2l "no json here")
      (by simp) (by decide)⟩

/-!  ## C7: batch results match input order -/

/-- C7.  `analyzeFunctionBatch` returns one analyzed record per input
record, and mapping each result back to its function record recovers the
input batch in order; the `Promise.all` fan-out resolves to the input-order
list, which the map over the enumerated batch models. -/
theorem batch_preserves_length_and_order
    (batch : List FunctionRec) (prompt : List Char) (resp : Nat → List Char)
    (hb : batch ≠ []) (hp : prompt ≠ []) :
    ∃ out, analyzeFunctionBatch batch prompt resp = .ok out ∧
      out.length = batch.length ∧ out.map (fun r => r.fn) = batch := by
  have hb' : batch.isEmpty = false := by simpa using hb
  have hp' : prompt.isEmpty = false := by simpa using hp
  refine ⟨batch.enum.map (fun p => ⟨p.2, extractAnalysis (resp p.1)⟩), ?_, by simp, ?_⟩
  · simp [analyzeFunctionBatch, hb', hp']
  · rw [List.map_map]
    exact List.enum_map_snd batch

/-- Witness for C7 at a concrete two-element batch. -/
theorem batch_preserves_length_and_order_witness :
    ([sampleFn, sampleFn] ≠ [] ∧ s2l "p" ≠ []) ∧
    ∃ out, analyzeFunctionBatch [sampleFn, sampleFn] (s2l "p") (fun _ => s2l "x") = .ok out ∧
      out.length = [sampleFn, sampleFn].length ∧
      out.map (fun r => r.fn) = [sampleFn, sampleFn] :=
  ⟨⟨by simp, by decide⟩,
    batch_preserves_length_and_order [sampleFn, sampleFn] (s2l "p") (fun _ => s2l "x")
      (by simp) (by decide)⟩

/-!  ## C4: behavior when no record is flagged (corrected) -/

/-- Counterexample for C4 as stated.  Called with records none of which is
flagged, the spliced variant does **not** return the `null` sentinel: it
writes the unmodified original content to the `.refactor` sibling path and
returns that path. -/
theorem spliced_writes_original_when_none_flagged :
    generateRefactorFileSpliced (s2l "a.js") [⟨sampleFn, defaultAnalysis⟩]
        (s2l "function f()\x7b\x7d") =
      .ok (some (s2l "a.refactor.js", s2l "function f()\x7b\x7d")) ∧
    generateRefactorFileSpliced (s2l "a.js") [⟨sampleFn, defaultAnalysis⟩]
        (s2l "function f()\x7b\x7d") ≠ .ok none ∧
    truthy (getProp (AnalyzedFunctionRec.analysis ⟨sampleFn, defaultAnalysis⟩)
      (s2l "needsRefactor")) = false := by
  refine ⟨rfl, ?_, rfl⟩
  intro h
  rw [show generateRefactorFileSpliced (s2l "a.js") [⟨sampleFn, defaultAnalysis⟩]
      (s2l "function f()\x7b\x7d") =
      .ok (some (s2l "a.refactor.js", s2l "function f()\x7b\x7d")) from rfl] at h
  exact Option.noConfusion (Except.ok.inj h)

/-- C4 (amended).  The consolidated variant returns the `null` sentinel and
performs no write whenever no record is flagged; the spliced variant instead
always writes (the driver only invokes a generator when some record is
flagged). -/
theorem consolidated_returns_null_when_none_flagged
    (filePath content : List Char) (results : List AnalyzedFunctionRec)
    (h : ∀ r ∈ results, truthy (getProp r.analysis (s2l "needsRefactor")) = false) :
    generateRefactorFile filePath results content = .ok none := by
  have hf : results.filter (fun r => truthy (getProp r.analysis (s2l "needsRefactor"))) = [] := by
    rw [List.filter_eq_nil_iff]
    intro r hr
    simp [h r hr]
  simp [generateRefactorFile, hf, sortAscA]

/-- Witness for the amended C4 at a concrete unflagged record. -/
theorem consolidated_returns_null_when_none_flagged_witness :
    (∀ r ∈ [⟨sampleFn, defaultAnalysis⟩],
      truthy (getProp (AnalyzedFunctionRec.analysis r) (s2l "needsRefactor")) = false) ∧
    generateRefactorFile (s2l "a.js") [⟨sampleFn, defaultAnalysis⟩] (s2l "c") = .ok none := by
  have h : ∀ r ∈ [(⟨sampleFn, defaultAnalysis⟩ : AnalyzedFunctionRec)],
      truthy (getProp r.analysis (s2l "needsRefactor")) = false := by
    intro r hr
    rw [List.mem_singleton] at hr
    subst hr
    rfl
  exact ⟨h, consolidated_returns_null_when_none_flagged (s2l "a.js") (s2l "c") _ h⟩

/-!  ## C10: consolidated generator on a flagged record with a null prompt -/

/-- C10.  If some record is flagged but its `refactorPrompt` is `null`, the
consolidated generator throws — `null.split` raises a `TypeError`, the
surrounding `catch` re-throws it wrapped as
`Failed to generate refactor file: …` — and the result is an error, not a
write, so no output file is produced. -/
theorem consolidated_throws_on_null_prompt
    (filePath content : List Char) (results : List AnalyzedFunctionRec)
    (h : ∃ r ∈ results, truthy (getProp r.analysis (s2l "needsRefactor")) = true ∧
      getProp r.analysis (s2l "refactorPrompt") = .null) :
    ∃ e, generateRefactorFile filePath results content = .error e ∧
      hasPrefixL (s2l "Failed to generate refactor file: ") e = true := by
  rcases h with ⟨r, hr, hflag, hnull⟩
  have hrf : r ∈ results.filter (fun x => truthy (getProp x.analysis (s2l "needsRefactor"))) :=
    List.mem_filter.mpr ⟨hr, by simp [hflag]⟩
  have hrs : r ∈ sortAscA (results.filter
      (fun x => truthy (getProp x.analysis (s2l "needsRefactor")))) :=
    mem_sortAscA.mpr hrf
  have hne : (sortAscA (results.filter
      (fun x => truthy (getProp x.analysis (s2l "needsRefactor"))))).isEmpty = false := by
    cases hcase : sortAscA (results.filter
        (fun x => truthy (getProp x.analysis (s2l "needsRefactor")))) with
    | nil => rw [hcase] at hrs; cases hrs
    | cons a as => rfl
  have herr : ∃ e, ((sortAscA (results.filter
      (fun x => truthy (getProp x.analysis (s2l "needsRefactor"))))).enum.mapM
      (fun p => formatRefactorPrompt p.2 p.1)) = .error e := by
    have := enumFrom_mapM_error (fun x i => formatRefactorPrompt x i)
      (sortAscA (results.filter
        (fun x => truthy (getProp x.analysis (s2l "needsRefactor"))))) 0
      ⟨r, hrs, fun i => ⟨s2l "Cannot read properties of null (reading 'split')",
        by simp [formatRefactorPrompt, hnull]⟩⟩
    simpa [List.enum] using this
  rcases herr with ⟨e, he⟩
  refine ⟨s2l "Failed to generate refactor file: " ++ e, ?_, hasPrefixL_append_self _ _⟩
  simp only [generateRefactorFile, hne, Bool.false_eq_true, if_false, he]

/-- Witness for C10 at a concrete flagged record with a `null` prompt. -/
theorem consolidated_throws_on_null_prompt_witness :
    (∃ r ∈ [sampleFlaggedNull],
      truthy (getProp (AnalyzedFunctionRec.analysis r) (s2l "needsRefactor")) = true ∧
      getProp (AnalyzedFunctionRec.analysis r) (s2l "refactorPrompt") = .null) ∧
    ∃ e, generateRefactorFile (s2l "a.js") [sampleFlaggedNull] (s2l "c") = .error e ∧
      hasPrefixL (s2l "Failed to generate refactor file: ") e = true := by
  have h : ∃ r ∈ [sampleFlaggedNull],
      truthy (getProp (AnalyzedFunctionRec.analysis r) (s2l "needsRefactor")) = true ∧
      getProp (AnalyzedFunctionRec.analysis r) (s2l "refactorPrompt") = .null :=
    ⟨sampleFlaggedNull, List.mem_singleton.mpr rfl, rfl, rfl⟩
  exact ⟨h, consolidated_throws_on_null_prompt (s2l "a.js") (s2l "c") [sampleFlaggedNull] h⟩



/-!  ## Engine lemmas for the scanner claims -/

theorem matchR_len : ∀ (f : Nat) (r : RE) (s : List Char) (cp : Caps)
    (q : List Char × Caps), q ∈ matchR f r s cp → q.1.length + minLen r ≤ s.length := by
  intro f
  induction f with
  | zero => intro r s cp q hq; simp [matchR] at hq
  | succ f ih =>
    intro r s cp q hq
    cases r with
    | eps =>
      simp only [matchR, List.mem_singleton] at hq
      subst hq
      simp [minLen]
    | eolm =>
      cases s with
      | nil =>
        simp only [matchR, List.mem_singleton] at hq
        subst hq
        simp [minLen]
      | cons c cs =>
        simp only [matchR] at hq
        split at hq
        · rw [List.mem_singleton] at hq
          subst hq
          simp [minLen]
        · cases hq
    | cls p =>
      cases s with
      | nil => simp [matchR] at hq
      | cons c cs =>
        simp only [matchR] at hq
        split at hq
        · rw [List.mem_singleton] at hq
          subst hq
          simp [minLen]
        · cases hq
    | lit l =>
      simp only [matchR] at hq
      split at hq
      · rename_i hpre
        rw [List.mem_singleton] at hq
        subst hq
        have := hasPrefixL_length_le hpre
        simp only [minLen, List.length_drop]
        omega
      · cases hq
    | seq a b =>
      simp only [matchR, List.mem_flatMap] at hq
      rcases hq with ⟨q1, hq1, hq2⟩
      have h1 := ih a s cp q1 hq1
      have h2 := ih b q1.1 q1.2 q hq2
      simp only [minLen]
      omega
    | alt a b =>
      simp only [matchR, List.mem_append] at hq
      simp only [minLen]
      rcases hq with hq | hq
      · have := ih a s cp q hq
        omega
      · have := ih b s cp q hq
        omega
    | starG r =>
      simp only [matchR, List.mem_append, List.mem_flatMap, List.mem_singleton] at hq
      simp only [minLen]
      rcases hq with ⟨q1, hq1, hmem⟩ | hq
      · split at hmem
        · have h1 := ih r s cp q1 hq1
          have h2 := ih (.starG r) q1.1 q1.2 q hmem
          simp only [minLen] at h2
          omega
        · cases hmem
      · subst hq
        simp
    | starL r =>
      simp only [matchR, List.mem_cons, List.mem_flatMap] at hq
      simp only [minLen]
      rcases hq with hq | ⟨q1, hq1, hmem⟩
      · subst hq
        simp
      · split at hmem
        · have h1 := ih r s cp q1 hq1
          have h2 := ih (.starL r) q1.1 q1.2 q hmem
          simp only [minLen] at h2
          omega
        · cases hmem
    | grp i r =>
      simp only [matchR, List.mem_map] at hq
      rcases hq with ⟨q1, hq1, heq⟩
      have h1 := ih r s cp q1 hq1
      have hq1eq : q.1 = q1.1 := by rw [← heq]
      have hlen : q.1.length = q1.1.length := by rw [hq1eq]
      simp only [minLen]
      omega

theorem execFromAux_some {re : RE} {c : List Char} :
    ∀ (k i : Nat) (m : MRes), execFromAux re c k i = some m →
      i ≤ m.start ∧ minLen re ≤ m.len ∧ m.start + m.len ≤ c.length := by
  intro k
  induction k with
  | zero => intro i m h; simp [execFromAux] at h
  | succ k ih =>
    intro i m h
    rw [execFromAux] at h
    split at h
    · rename_i hi
      split at h
      · rename_i q hq
        have hqmem : q ∈ matchR (fuelFor re (c.drop i)) re (c.drop i) [] :=
          List.mem_of_mem_head? (by rw [hq]; exact rfl)
        have hlen := matchR_len _ _ _ _ _ hqmem
        rw [List.length_drop] at hlen
        cases h
        refine ⟨Nat.le_refl _, ?_, ?_⟩ <;> simp <;> omega
      · have := ih (i + 1) m h
        omega
    · cases h

theorem execFrom_some {re : RE} {c : List Char} {pos : Nat} {m : MRes}
    (h : execFrom re c pos = some m) :
    pos ≤ m.start ∧ minLen re ≤ m.len ∧ m.start + m.len ≤ c.length :=
  execFromAux_some _ _ _ h

theorem minLen_functionRegexNew : 1 ≤ minLen functionRegexNew := by decide

theorem minLen_functionRegexOld : 1 ≤ minLen functionRegexOld := by decide

theorem sliceN_append_drop {l : List Char} {a b : Nat} (h : a ≤ b) :
    sliceN l a b ++ l.drop b = l.drop a := by
  have hd : l.drop b = (l.drop a).drop (b - a) := by
    rw [List.drop_drop]
    congr 1
    omega
  rw [sliceN, hd, List.take_append_drop]

/-!  ## C1: the scanner's ordering and non-overlap invariant -/

theorem scanLoop_inv (content : List Char) : ∀ (k pos : Nat)
    (p : List Char × FunctionRec), p ∈ scanLoop content k pos →
    pos ≤ p.2.startIndex ∧ p.2.startIndex + 1 ≤ p.2.endIndex ∧
      p.2.endIndex ≤ content.length ∧
      p.2.code = sliceN content p.2.startIndex p.2.endIndex := by
  intro k
  induction k with
  | zero => intro pos p hp; simp [scanLoop] at hp
  | succ k ih =>
    intro pos p hp
    rw [scanLoop] at hp
    cases hex : execFrom functionRegexNew content pos with
    | none => rw [hex] at hp; cases hp
    | some m =>
      rw [hex] at hp
      simp only [List.mem_cons] at hp
      have hm := execFrom_some hex
      have hml := minLen_functionRegexNew
      rcases hp with hp | hp
      · subst hp
        refine ⟨by simp; omega, by simp; omega, by simp; omega, by simp⟩
      · have := ih (m.start + m.len) p hp
        refine ⟨by omega, this.2.1, this.2.2.1, this.2.2.2⟩

theorem scanLoop_pairwise (content : List Char) : ∀ (k pos : Nat),
    List.Pairwise (fun a b => a.2.endIndex ≤ b.2.startIndex) (scanLoop content k pos) := by
  intro k
  induction k with
  | zero => intro pos; simp [scanLoop]
  | succ k ih =>
    intro pos
    rw [scanLoop]
    cases hex : execFrom functionRegexNew content pos with
    | none => simp
    | some m =>
      refine List.Pairwise.cons ?_ (ih (m.start + m.len))
      intro b hb
      have := (scanLoop_inv content k (m.start + m.len) b hb).1
      simpa using this

theorem sortAscF_eq_self : ∀ {l : List FunctionRec},
    List.Pairwise (fun a b => a.startIndex ≤ b.startIndex) l → sortAscF l = l := by
  intro l
  induction l with
  | nil => intro _; rfl
  | cons x xs ih =>
    intro h
    have h1 : sortAscF (x :: xs) = insertAscF x (sortAscF xs) := rfl
    rw [h1, ih h.of_cons]
    cases xs with
    | nil => rfl
    | cons y ys =>
      have hxy : x.startIndex ≤ y.startIndex :=
        (List.pairwise_cons.mp h).1 y (List.mem_cons_self _ _)
      simp [insertAscF, hxy]

/-- C1.  For every input content, the record list returned by the scanner is
strictly ascending by `startIndex` (hence in source order) with
non-overlapping `[startIndex, endIndex)` spans, and every record's `code` is
exactly the source span between its offsets. -/
theorem scanner_sorted_nonoverlapping (content : List Char) :
    List.Pairwise (fun a b => a.startIndex < b.startIndex ∧ a.endIndex ≤ b.startIndex)
      (extractFunctions content).functions ∧
    ∀ r ∈ (extractFunctions content).functions,
      r.startIndex < r.endIndex ∧ r.endIndex ≤ content.length ∧
      r.code = sliceN content r.startIndex r.endIndex := by
  have hpw0 := scanLoop_pairwise content (content.length + 1) 0
  have hpw1 : List.Pairwise (fun a b => a.endIndex ≤ b.startIndex)
      ((scanLoop content (content.length + 1) 0).map (fun p => p.2)) :=
    (List.pairwise_map).mpr hpw0
  have hmem : ∀ r ∈ (scanLoop content (content.length + 1) 0).map (fun p => p.2),
      r.startIndex < r.endIndex ∧ r.endIndex ≤ content.length ∧
      r.code = sliceN content r.startIndex r.endIndex := by
    intro r hr
    rcases List.mem_map.mp hr with ⟨p, hp, hpr⟩
    have := scanLoop_inv content (content.length + 1) 0 p hp
    subst hpr
    exact ⟨by omega, this.2.2.1, this.2.2.2⟩
  have hpw2 : List.Pairwise (fun a b => a.startIndex < b.startIndex ∧ a.endIndex ≤ b.startIndex)
      ((scanLoop content (content.length + 1) 0).map (fun p => p.2)) := by
    refine List.Pairwise.imp_of_mem ?_ hpw1
    intro a b ha hb hab
    have h1 := (hmem a ha).1
    exact ⟨by omega, hab⟩
  have hsorted : sortAscF ((scanLoop content (content.length + 1) 0).map (fun p => p.2)) =
      (scanLoop content (content.length + 1) 0).map (fun p => p.2) :=
    sortAscF_eq_self (hpw2.imp (fun h => by omega))
  have hfun : (extractFunctions content).functions =
      (scanLoop content (content.length + 1) 0).map (fun p => p.2) := by
    simp only [extractFunctions]
    exact hsorted
  rw [hfun]
  exact ⟨hpw2, hmem⟩

/-!  ## C6: gap/span concatenation reconstructs the content -/

theorem scanLoop_concat (content : List Char) : ∀ (k pos : Nat), pos ≤ content.length →
    concatPre (scanLoop content k pos) ++
      content.drop (lastEnd (scanLoop content k pos) pos) = content.drop pos := by
  intro k
  induction k with
  | zero => intro pos _; simp [scanLoop, concatPre, lastEnd]
  | succ k ih =>
    intro pos hpos
    rw [scanLoop]
    cases hex : execFrom functionRegexNew content pos with
    | none => simp [concatPre, lastEnd]
    | some m =>
      have hm := execFrom_some hex
      simp only [concatPre, List.foldr_cons, lastEnd]
      have hih := ih (m.start + m.len) (by omega)
      rw [List.append_assoc, List.append_assoc]
      rw [show concatPre (scanLoop content k (m.start + m.len)) =
        (scanLoop content k (m.start + m.len)).foldr (fun p acc => p.1 ++ p.2.code ++ acc) []
        from rfl] at hih
      rw [hih]
      rw [sliceN_append_drop (by omega), sliceN_append_drop (by omega)]

theorem scanLoopOld_concat (content : List Char) : ∀ (k pos : Nat), pos ≤ content.length →
    concatPreOld (scanLoopOld content k pos) ++
      content.drop (lastEndOld (scanLoopOld content k pos) pos) = content.drop pos := by
  intro k
  induction k with
  | zero => intro pos _; simp [scanLoopOld, concatPreOld, lastEndOld]
  | succ k ih =>
    intro pos hpos
    rw [scanLoopOld]
    cases hex : execFrom functionRegexOld content pos with
    | none => simp [concatPreOld, lastEndOld]
    | some m =>
      have hm := execFrom_some hex
      simp only [concatPreOld, List.foldr_cons, lastEndOld]
      have hih := ih (m.start + m.len) (by omega)
      rw [List.append_assoc, List.append_assoc]
      rw [show concatPreOld (scanLoopOld content k (m.start + m.len)) =
        (scanLoopOld content k (m.start + m.len)).foldr (fun r acc => r.preText ++ r.code ++ acc)
          [] from rfl] at hih
      rw [hih]
      rw [sliceN_append_drop (by omega), sliceN_append_drop (by omega)]

/-- C6.  Concatenating, in order, each record's preceding gap and its
function span, followed by the trailing `postText`, reconstructs the
original content exactly — for the current scanner (whose per-iteration
`preText` gap is the first component of each scanned pair) and for the older
scanner (which stores the gap in the record's `preText` field). -/
theorem scanner_roundtrip (content : List Char) :
    concatPre (scanLoop content (content.length + 1) 0) ++
      (extractFunctions content).postText = content ∧
    concatPreOld (extractFunctionsV0 content).functions ++
      (extractFunctionsV0 content).postText = content := by
  constructor
  · have := scanLoop_concat content (content.length + 1) 0 (by omega)
    simpa [extractFunctions] using this
  · have := scanLoopOld_concat content (content.length + 1) 0 (by omega)
    simpa [extractFunctionsV0] using this



/-!  ## C3: the spliced generator -/

theorem sliceN_eq_take_drop (l : List Char) (a b : Nat) :
    sliceN l a b = (l.take b).drop a := by
  rw [sliceN, List.drop_take]

theorem sliceN_take_agree {l t : List Char} {n a b : Nat} (hb : b ≤ n) (hn : n ≤ l.length) :
    sliceN (l.take n ++ t) a b = sliceN l a b := by
  rw [sliceN_eq_take_drop, sliceN_eq_take_drop]
  congr 1
  rw [List.take_append_eq_append_take]
  have hlen : (l.take n).length = n := by
    rw [List.length_take]
    omega
  rw [hlen, List.take_take]
  have h0 : b - n = 0 := by omega
  have hmin : min b n = b := by omega
  rw [h0, hmin, List.take_zero, List.append_nil]

theorem drop_append_left {u v : List Char} {a : Nat} (h : a ≤ u.length) :
    (u ++ v).drop a = u.drop a ++ v := by
  rw [List.drop_append_eq_append_drop]
  have h0 : a - u.length = 0 := by omega
  rw [h0, List.drop_zero]

theorem sliceN_split {l : List Char} {a b d : Nat} (hab : a ≤ b) (hbd : b ≤ d) :
    sliceN l a d = sliceN l a b ++ sliceN l b d := by
  have h1 : sliceN l a d ++ l.drop d = (sliceN l a b ++ sliceN l b d) ++ l.drop d := by
    rw [sliceN_append_drop (by omega), List.append_assoc, sliceN_append_drop hbd,
      sliceN_append_drop hab]
  exact List.append_cancel_right h1

theorem splicedSpec_insert (c : List Char) (z : AnalyzedFunctionRec)
    (hz : z.fn.startIndex ≤ c.length) :
    ∀ (L : List AnalyzedFunctionRec) (prev : Nat), prev ≤ z.fn.startIndex →
      (∀ r ∈ L, r.fn.startIndex ≤ z.fn.startIndex) →
      splicedSpec
        (c.take z.fn.startIndex ++ refactorCommentOf (promptStr z) ++ c.drop z.fn.startIndex)
        prev L = splicedSpec c prev (L ++ [z]) := by
  intro L
  induction L with
  | nil =>
    intro prev hprev _
    show (c.take z.fn.startIndex ++ refactorCommentOf (promptStr z) ++
        c.drop z.fn.startIndex).drop prev = _
    have htl : (c.take z.fn.startIndex).length = z.fn.startIndex := by
      rw [List.length_take]
      omega
    rw [List.append_assoc, drop_append_left (by omega)]
    show _ = sliceN c prev z.fn.startIndex ++ refactorCommentOf (promptStr z) ++
      splicedSpec c z.fn.startIndex []
    show _ = sliceN c prev z.fn.startIndex ++ refactorCommentOf (promptStr z) ++
      c.drop z.fn.startIndex
    rw [sliceN_eq_take_drop, List.append_assoc]
  | cons r L' ih =>
    intro prev hprev hle
    have hr : r.fn.startIndex ≤ z.fn.startIndex := hle r (List.mem_cons_self _ _)
    show sliceN (c.take z.fn.startIndex ++ refactorCommentOf (promptStr z) ++
        c.drop z.fn.startIndex) prev r.fn.startIndex ++ refactorCommentOf (promptStr r) ++
        splicedSpec _ r.fn.startIndex L' = _
    rw [List.append_assoc (c.take z.fn.startIndex)]
    rw [sliceN_take_agree hr hz]
    rw [← List.append_assoc (c.take z.fn.startIndex)]
    rw [ih r.fn.startIndex hr (fun x hx => hle x (List.mem_cons_of_mem _ hx))]
    rfl

theorem spliceLoop_reverse_closed :
    ∀ (L : List AnalyzedFunctionRec) (c : List Char),
      (∀ r ∈ L, r.fn.startIndex ≤ c.length) →
      List.Pairwise (fun a b => a.fn.startIndex ≤ b.fn.startIndex) L →
      (∀ r ∈ L, ∃ p, getProp r.analysis (s2l "refactorPrompt") = .str p ∧ p ≠ []) →
      spliceLoop L.reverse c = .ok (splicedSpec c 0 L) := by
  intro L
  induction L using List.reverseRecOn with
  | nil =>
    intro c _ _ _
    rfl
  | append_singleton L0 z ih =>
    intro c hlen hpw hpr
    rcases hpr z (by simp) with ⟨p, hp, hpne⟩
    have hzlen : z.fn.startIndex ≤ c.length := hlen z (by simp)
    have htruthy : truthy (getProp z.analysis (s2l "refactorPrompt")) = true := by
      rw [hp]
      simpa [truthy] using hpne
    have hstep : spliceLoop (L0 ++ [z]).reverse c =
        spliceLoop L0.reverse
          (c.take z.fn.startIndex ++ refactorCommentOf p ++ c.drop z.fn.startIndex) := by
      rw [List.reverse_append, List.reverse_singleton, List.singleton_append]
      rw [spliceLoop]
      rw [hp] at htruthy ⊢
      rw [htruthy]
      rfl
    rw [hstep]
    have hc2 : ∀ r ∈ L0, r.fn.startIndex ≤
        (c.take z.fn.startIndex ++ refactorCommentOf p ++ c.drop z.fn.startIndex).length := by
      intro r hr
      have := hlen r (by simp [hr])
      simp only [List.length_append, List.length_take, List.length_drop]
      omega
    have hpw0 : List.Pairwise (fun a b => a.fn.startIndex ≤ b.fn.startIndex) L0 :=
      (List.pairwise_append.mp hpw).1
    have hpr0 : ∀ r ∈ L0, ∃ q, getProp r.analysis (s2l "refactorPrompt") = .str q ∧ q ≠ [] :=
      fun r hr => hpr r (by simp [hr])
    rw [ih _ hc2 hpw0 hpr0]
    have hle0 : ∀ r ∈ L0, r.fn.startIndex ≤ z.fn.startIndex := by
      intro r hr
      exact (List.pairwise_append.mp hpw).2.2 r hr z (by simp)
    have hps : promptStr z = p := by
      simp [promptStr, hp]
    rw [← hps] at *
    rw [splicedSpec_insert c z hzlen L0 0 (by omega) hle0]

theorem insertDescA_append (x : AnalyzedFunctionRec) :
    ∀ (l : List AnalyzedFunctionRec), (∀ y ∈ l, ¬ (y.fn.startIndex ≤ x.fn.startIndex)) →
      insertDescA x l = l ++ [x] := by
  intro l
  induction l with
  | nil => intro _; rfl
  | cons y ys ih =>
    intro h
    have hy : ¬ (y.fn.startIndex ≤ x.fn.startIndex) := h y (List.mem_cons_self _ _)
    simp only [insertDescA, if_neg hy]
    rw [ih (fun a ha => h a (List.mem_cons_of_mem _ ha))]
    rfl

theorem sortDescA_of_ascending : ∀ {l : List AnalyzedFunctionRec},
    List.Pairwise (fun a b => a.fn.startIndex < b.fn.startIndex) l →
    sortDescA l = l.reverse := by
  intro l
  induction l with
  | nil => intro _; rfl
  | cons x xs ih =>
    intro h
    have h1 : sortDescA (x :: xs) = insertDescA x (sortDescA xs) := rfl
    rw [h1, ih (List.pairwise_cons.mp h).2]
    rw [insertDescA_append x xs.reverse ?_]
    · rw [List.reverse_cons]
    · intro y hy
      have := (List.pairwise_cons.mp h).1 y (List.mem_reverse.mp hy)
      omega

theorem splicedSpec_decomp (c : List Char) :
    ∀ (L : List AnalyzedFunctionRec) (prev : Nat),
      List.Pairwise (fun a b => a.fn.endIndex ≤ b.fn.startIndex) L →
      (∀ r ∈ L, r.fn.startIndex ≤ r.fn.endIndex ∧
        r.fn.code = sliceN c r.fn.startIndex r.fn.endIndex) →
      ∀ r ∈ L, ∃ pre suf,
        splicedSpec c prev L = pre ++ refactorCommentOf (promptStr r) ++ r.fn.code ++ suf := by
  intro L
  induction L with
  | nil => intro prev _ _ r hr; cases hr
  | cons a L' ih =>
    intro prev hpw hspan r hr
    rcases List.mem_cons.mp hr with hra | hrL
    · subst hra
      have ha := hspan r (List.mem_cons_self _ _)
      have htail : ∃ suf, splicedSpec c r.fn.startIndex L' = r.fn.code ++ suf := by
        cases L' with
        | nil =>
          refine ⟨c.drop r.fn.endIndex, ?_⟩
          show c.drop r.fn.startIndex = _
          rw [ha.2, sliceN_append_drop ha.1]
        | cons b L'' =>
          have hab : r.fn.endIndex ≤ b.fn.startIndex :=
            (List.pairwise_cons.mp hpw).1 b (List.mem_cons_self _ _)
          refine ⟨sliceN c r.fn.endIndex b.fn.startIndex ++ refactorCommentOf (promptStr b) ++
            splicedSpec c b.fn.startIndex L'', ?_⟩
          show sliceN c r.fn.startIndex b.fn.startIndex ++ _ ++ _ = _
          rw [sliceN_split ha.1 hab, ha.2]
          simp [List.append_assoc]
      rcases htail with ⟨suf, hsuf⟩
      refine ⟨sliceN c prev r.fn.startIndex, suf, ?_⟩
      show sliceN c prev r.fn.startIndex ++ refactorCommentOf (promptStr r) ++
        splicedSpec c r.fn.startIndex L' = _
      rw [hsuf]
      simp [List.append_assoc]
    · have ihr := ih a.fn.startIndex (List.pairwise_cons.mp hpw).2
        (fun x hx => hspan x (List.mem_cons_of_mem _ hx)) r hrL
      rcases ihr with ⟨pre, suf, hps⟩
      refine ⟨sliceN c prev a.fn.startIndex ++ refactorCommentOf (promptStr a) ++ pre, suf, ?_⟩
      show sliceN c prev a.fn.startIndex ++ refactorCommentOf (promptStr a) ++
        splicedSpec c a.fn.startIndex L' = _
      rw [hps]
      simp [List.append_assoc]

/-- C3.  On analyzer output — records strictly ascending with
non-overlapping spans whose `code` is the source span, flagged records
carrying non-empty string prompts — the spliced generator filters to the
flagged records and produces exactly the ascending interleaving
`splicedSpec`: the original text with each flagged record's comment block
inserted immediately before that record's `startIndex`.  Consequently every
flagged function's original span appears intact, directly preceded by its
comment block, and no other text is disturbed. -/
theorem spliced_generator_inserts_blocks
    (filePath content : List Char) (results : List AnalyzedFunctionRec)
    (hpw : List.Pairwise
      (fun a b => a.fn.startIndex < b.fn.startIndex ∧ a.fn.endIndex ≤ b.fn.startIndex) results)
    (hspan : ∀ r ∈ results, r.fn.startIndex ≤ r.fn.endIndex ∧
      r.fn.endIndex ≤ content.length ∧
      r.fn.code = sliceN content r.fn.startIndex r.fn.endIndex)
    (hprompt : ∀ r ∈ results, truthy (getProp r.analysis (s2l "needsRefactor")) = true →
      ∃ p, getProp r.analysis (s2l "refactorPrompt") = .str p ∧ p ≠ []) :
    ∃ out, generateRefactorFileSpliced filePath results content =
      .ok (some (mkRefactorPath filePath, out)) ∧
      out = splicedSpec content 0
        (results.filter (fun r => truthy (getProp r.analysis (s2l "needsRefactor")))) ∧
      ∀ r ∈ results.filter (fun r => truthy (getProp r.analysis (s2l "needsRefactor"))),
        ∃ pre suf, out = pre ++ refactorCommentOf (promptStr r) ++ r.fn.code ++ suf := by
  have hdesc : sortDescA results = results.reverse :=
    sortDescA_of_ascending (hpw.imp (fun h => h.1))
  have hfilrev : (results.reverse).filter
      (fun r => truthy (getProp r.analysis (s2l "needsRefactor"))) =
      (results.filter (fun r => truthy (getProp r.analysis (s2l "needsRefactor")))).reverse := by
    rw [List.filter_reverse]
  have hpwf : List.Pairwise
      (fun a b => a.fn.startIndex < b.fn.startIndex ∧ a.fn.endIndex ≤ b.fn.startIndex)
      (results.filter (fun r => truthy (getProp r.analysis (s2l "needsRefactor")))) :=
    hpw.filter _
  have hA : ∀ r ∈ results.filter (fun r => truthy (getProp r.analysis (s2l "needsRefactor"))),
      r.fn.startIndex ≤ content.length := by
    intro r hr
    have := hspan r (List.mem_filter.mp hr).1
    omega
  have hB : List.Pairwise (fun a b => a.fn.startIndex ≤ b.fn.startIndex)
      (results.filter (fun r => truthy (getProp r.analysis (s2l "needsRefactor")))) :=
    hpwf.imp (fun h => by omega)
  have hC : ∀ r ∈ results.filter (fun r => truthy (getProp r.analysis (s2l "needsRefactor"))),
      ∃ p, getProp r.analysis (s2l "refactorPrompt") = .str p ∧ p ≠ [] := by
    intro r hr
    exact hprompt r (List.mem_filter.mp hr).1 (by simpa using (List.mem_filter.mp hr).2)
  have hloop : spliceLoop
      ((results.filter (fun r => truthy (getProp r.analysis (s2l "needsRefactor")))).reverse)
      content = .ok (splicedSpec content 0
        (results.filter (fun r => truthy (getProp r.analysis (s2l "needsRefactor"))))) :=
    spliceLoop_reverse_closed _ content hA hB hC
  refine ⟨splicedSpec content 0
    (results.filter (fun r => truthy (getProp r.analysis (s2l "needsRefactor")))), ?_, rfl, ?_⟩
  · show (match spliceLoop ((sortDescA results).filter
        (fun r => truthy (getProp r.analysis (s2l "needsRefactor")))) content with
      | Except.ok c => Except.ok (some (mkRefactorPath filePath, c))
      | Except.error e =>
        (Except.error e : Except (List Char) (Option (List Char × List Char)))) = _
    rw [hdesc, hfilrev, hloop]
  · apply splicedSpec_decomp content _ 0 (hpwf.imp (fun h => h.2))
    intro r hr
    have := hspan r (List.mem_filter.mp hr).1
    exact ⟨this.1, this.2.2⟩

/-- Witness for C3 at a concrete one-record input: the spliced output is the
original content with the comment block inserted before offset 5. -/
theorem spliced_generator_inserts_blocks_witness :
    (List.Pairwise
      (fun a b : AnalyzedFunctionRec =>
        a.fn.startIndex < b.fn.startIndex ∧ a.fn.endIndex ≤ b.fn.startIndex) [sampleFlagged] ∧
     (∀ r ∈ [sampleFlagged], r.fn.startIndex ≤ r.fn.endIndex ∧
        r.fn.endIndex ≤ (s2l "abcd function f()\x7b\x7d").length ∧
        r.fn.code = sliceN (s2l "abcd function f()\x7b\x7d") r.fn.startIndex r.fn.endIndex) ∧
     (∀ r ∈ [sampleFlagged],
        truthy (getProp r.analysis (s2l "needsRefactor")) = true →
        ∃ p, getProp r.analysis (s2l "refactorPrompt") = .str p ∧ p ≠ [])) ∧
    ∃ out, generateRefactorFileSpliced (s2l "a.js") [sampleFlagged]
        (s2l "abcd function f()\x7b\x7d") = .ok (some (mkRefactorPath (s2l "a.js"), out)) ∧
      out = splicedSpec (s2l "abcd function f()\x7b\x7d") 0
        ([sampleFlagged].filter
          (fun r => truthy (getProp r.analysis (s2l "needsRefactor")))) ∧
      ∀ r ∈ [sampleFlagged].filter
          (fun r => truthy (getProp r.analysis (s2l "needsRefactor"))),
        ∃ pre suf, out = pre ++ refactorCommentOf (promptStr r) ++ r.fn.code ++ suf := by
  have h1 : List.Pairwise
      (fun a b : AnalyzedFunctionRec =>
        a.fn.startIndex < b.fn.startIndex ∧ a.fn.endIndex ≤ b.fn.startIndex) [sampleFlagged] :=
    List.pairwise_singleton _ _
  have h2 : ∀ r ∈ [sampleFlagged], r.fn.startIndex ≤ r.fn.endIndex ∧
      r.fn.endIndex ≤ (s2l "abcd function f()\x7b\x7d").length ∧
      r.fn.code = sliceN (s2l "abcd function f()\x7b\x7d") r.fn.startIndex r.fn.endIndex := by
    intro r hr
    rw [List.mem_singleton] at hr
    subst hr
    exact ⟨by decide, by decide, by decide⟩
  have h3 : ∀ r ∈ [sampleFlagged],
      truthy (getProp r.analysis (s2l "needsRefactor")) = true →
      ∃ p, getProp r.analysis (s2l "refactorPrompt") = .str p ∧ p ≠ [] := by
    intro r hr _
    rw [List.mem_singleton] at hr
    subst hr
    exact ⟨s2l "fix", rfl, by decide⟩
  exact ⟨⟨h1, h2, h3⟩,
    spliced_generator_inserts_blocks (s2l "a.js") (s2l "abcd function f()\x7b\x7d")
      [sampleFlagged] h1 h2 h3⟩



/-!  ## C5: verdict extraction of the older analyzer (corrected) -/

/-- Counterexample for C5 as stated.  A response made of leading prose, a
fenced **code** block (which, as code, contains braces), and a trailing JSON
object: the extraction takes the substring from the first `\x7b` — inside the
code block — to the last `\x7d`, which is not valid JSON, so the default
verdict is returned instead of the trailing JSON object (which parses to a
flagged verdict). -/
theorem fenced_block_braces_break_extraction :
    analyzeFunctionForRefactoring
      (s2l "See:\n```js\nif (x) \x7b y() \x7d\n```\n\x7b\"needsRefactor\": true, \"refactorPrompt\": \"p\"\x7d") =
      defaultAnalysis ∧
    parseJson (s2l "\x7b\"needsRefactor\": true, \"refactorPrompt\": \"p\"\x7d") =
      .ok (.obj [(s2l "needsRefactor", .bool true), (s2l "refactorPrompt", .str (s2l "p"))]) ∧
    truthy (getProp (JsVal.obj
      [(s2l "needsRefactor", .bool true), (s2l "refactorPrompt", .str (s2l "p"))])
      (s2l "needsRefactor")) = true ∧
    truthy (getProp defaultAnalysis (s2l "needsRefactor")) = false :=
  ⟨rfl, rfl, rfl, rfl⟩

theorem mem_replaceAllAux_nil {re : RE} : ∀ (k : Nat) (s : List Char) (ch : Char),
    ch ∈ replaceAllAux re [] k s → ch ∈ s := by
  intro k
  induction k with
  | zero => intro s ch h; exact h
  | succ k ih =>
    intro s ch h
    cases hex : execFrom re s 0 with
    | none =>
      rw [replaceAllAux, hex] at h
      exact h
    | some m =>
      rw [replaceAllAux, hex] at h
      simp only [List.append_nil, List.nil_append, List.append_assoc] at h
      rcases Nat.eq_zero_or_pos m.len with hz | hz
      · rw [if_pos hz] at h
        rcases List.mem_append.mp h with h' | h'
        · exact List.mem_of_mem_take h'
        · rcases List.mem_append.mp h' with h'' | h''
          · exact List.mem_of_mem_drop (List.mem_of_mem_take h'')
          · exact List.mem_of_mem_drop (ih _ ch h'')
      · have hz' : ¬ (m.len = 0) := by omega
        rw [if_neg hz'] at h
        rcases List.mem_append.mp h with h' | h'
        · exact List.mem_of_mem_take h'
        · exact List.mem_of_mem_drop (ih _ ch h')

theorem mem_replaceAllRe_nil {re : RE} {s : List Char} {ch : Char}
    (h : ch ∈ replaceAllRe re [] s) : ch ∈ s :=
  mem_replaceAllAux_nil _ _ _ h

theorem idxOfChar_eq_none {c : Char} : ∀ {s : List Char}, c ∉ s → idxOfChar c s = none := by
  intro s
  induction s with
  | nil => intro _; rfl
  | cons d ds ih =>
    intro h
    have hdc : (d == c) = false := by
      simp only [List.mem_cons, not_or] at h
      simp [beq_iff_eq]
      intro hh
      exact h.1 hh.symm
    have hds : c ∉ ds := by
      simp only [List.mem_cons, not_or] at h
      exact h.2
    simp only [idxOfChar, hdc]
    rw [ih hds]
    simp

theorem mem_trimL {ch : Char} {s : List Char} (h : ch ∈ trimL s) : ch ∈ s :=
  (List.dropWhile_sublist _).mem h

theorem mem_trimR {ch : Char} {s : List Char} (h : ch ∈ trimR s) : ch ∈ s := by
  rw [trimR, List.mem_reverse] at h
  exact List.mem_reverse.mp (mem_trimL h)

theorem mem_trimB {ch : Char} {s : List Char} (h : ch ∈ trimB s) : ch ∈ s :=
  mem_trimL (mem_trimR h)

theorem analyzeFFR_default_of_no_brace {resp : List Char}
    (h : '\x7b' ∉ resp ∨ '\x7d' ∉ resp) :
    analyzeFunctionForRefactoring resp = defaultAnalysis := by
  have hchain : ∀ ch : Char,
      ch ∈ trimB (replaceAllRe fenceRegex [] (replaceAllRe fenceJsonRegex [] resp)) →
      ch ∈ resp := by
    intro ch hm
    exact mem_replaceAllRe_nil (mem_replaceAllRe_nil (mem_trimB hm))
  rcases h with h | h
  · have hidx : idxOfChar '\x7b'
        (trimB (replaceAllRe fenceRegex [] (replaceAllRe fenceJsonRegex [] resp))) = none :=
      idxOfChar_eq_none (fun hm => h (hchain _ hm))
    simp [analyzeFunctionForRefactoring, hidx]
  · have hmem : '\x7d' ∉
        (trimB (replaceAllRe fenceRegex [] (replaceAllRe fenceJsonRegex [] resp))).reverse := by
      rw [List.mem_reverse]
      exact fun hm => h (hchain _ hm)
    have hidx : lastIdxOfChar '\x7d'
        (trimB (replaceAllRe fenceRegex [] (replaceAllRe fenceJsonRegex [] resp))) = none := by
      rw [lastIdxOfChar, idxOfChar_eq_none hmem]
    cases hidx1 : idxOfChar '\x7b'
        (trimB (replaceAllRe fenceRegex [] (replaceAllRe fenceJsonRegex [] resp))) with
    | none => simp [analyzeFunctionForRefactoring, hidx1]
    | some st => simp [analyzeFunctionForRefactoring, hidx1, hidx]



theorem hasPrefixL_append (a b s : List Char) :
    hasPrefixL (a ++ b) s = (hasPrefixL a s && hasPrefixL b (s.drop a.length)) := by
  induction a generalizing s with
  | nil => simp [hasPrefixL]
  | cons c cs ih =>
    cases s with
    | nil => simp [hasPrefixL]
    | cons d ds =>
      show (c == d && hasPrefixL (cs ++ b) ds) = _
      rw [ih ds]
      simp only [List.length_cons, List.drop_succ_cons, hasPrefixL, Bool.and_assoc]

theorem hasPrefixL_single {c : Char} {s : List Char} :
    hasPrefixL [c] s = true ↔ s.head? = some c := by
  cases s with
  | nil => simp [hasPrefixL]
  | cons d ds =>
    simp only [hasPrefixL, List.head?_cons, Option.some_inj, Bool.and_true, beq_iff_eq]
    constructor
    · intro h; exact h.symm
    · intro h; exact h.symm

theorem hasPrefixL_false_of_head {pat : List Char} {c0 : Char} {s : List Char}
    (hpat : pat.head? = some c0) (hs : ∀ hd, s.head? = some hd → hd ≠ c0) :
    hasPrefixL pat s = false := by
  cases pat with
  | nil => cases hpat
  | cons p ps =>
    have hp : p = c0 := by simpa using hpat
    subst hp
    cases s with
    | nil => rfl
    | cons d ds =>
      have hd : d ≠ p := hs d rfl
      simp only [hasPrefixL, Bool.and_eq_false_iff]
      left
      simp [beq_iff_eq]
      intro h
      exact hd h.symm

theorem hasPrefixL_false_of_tickfree {pat : List Char} {c0 : Char} {s : List Char}
    (hpat : pat.head? = some c0) (hs : ∀ ch ∈ s, ch ≠ c0) :
    ∀ j, hasPrefixL pat (s.drop j) = false := by
  intro j
  apply hasPrefixL_false_of_head hpat
  intro hd hhd
  rw [List.head?_drop] at hhd
  have : hd ∈ s := by
    rcases List.getElem?_eq_some.mp hhd with ⟨hj, hget⟩
    exact hget ▸ List.getElem_mem _
  exact hs hd this

theorem hasPrefixL_false_left_seg {pat : List Char} {c0 : Char} {u v : List Char}
    (hpat : pat.head? = some c0) (hu : ∀ ch ∈ u, ch ≠ c0) :
    ∀ j, j < u.length → hasPrefixL pat ((u ++ v).drop j) = false := by
  intro j hj
  apply hasPrefixL_false_of_head hpat
  intro hd hhd
  rw [List.head?_drop, List.getElem?_append_left hj] at hhd
  have : hd ∈ u := by
    rcases List.getElem?_eq_some.mp hhd with ⟨hj2, hget⟩
    exact hget ▸ List.getElem_mem _
  exact hu hd this

theorem drop_append_len_add {u v : List Char} (k : Nat) :
    (u ++ v).drop (u.length + k) = v.drop k := by
  rw [List.drop_append_eq_append_drop, List.drop_eq_nil_of_le (by omega)]
  simp

theorem tick_positions (prose body json : List Char)
    (hpro : ∀ ch ∈ prose, ch ≠ '`')
    (hbody : ∀ ch ∈ body, ch ≠ '`')
    (hj : ∀ ch ∈ json, ch ≠ '`') :
    ∀ i, (prose ++ (s2l "```" ++ (body ++ (s2l "```" ++ json))))[i]? = some '`' →
      i = prose.length ∨ i = prose.length + 1 ∨ i = prose.length + 2 ∨
      i = prose.length + 3 + body.length ∨ i = prose.length + 4 + body.length ∨
      i = prose.length + 5 + body.length := by
  intro i hi
  by_cases h1 : i < prose.length
  · rw [List.getElem?_append_left h1] at hi
    have : '`' ∈ prose := by
      rcases List.getElem?_eq_some.mp hi with ⟨hj2, hget⟩
      exact hget ▸ List.getElem_mem _
    exact absurd (hpro _ this rfl) (by simp)
  · rw [List.getElem?_append_right (by omega)] at hi
    by_cases h2 : i - prose.length < 3
    · omega
    · rw [show (s2l "```" ++ (body ++ (s2l "```" ++ json))) =
          (s2l "```" ++ body) ++ (s2l "```" ++ json) by simp] at hi
      have hlen2 : (s2l "```" ++ body).length = 3 + body.length := by
        simp only [List.length_append]
        have : (s2l "```").length = 3 := rfl
        omega
      by_cases h3 : i - prose.length < (s2l "```" ++ body).length
      · rw [List.getElem?_append_left h3] at hi
        rw [List.getElem?_append_right (by
          have : (s2l "```").length = 3 := rfl
          omega)] at hi
        have : '`' ∈ body := by
          rcases List.getElem?_eq_some.mp hi with ⟨hj2, hget⟩
          exact hget ▸ List.getElem_mem _
        exact absurd (hbody _ this rfl) (by simp)
      · rw [List.getElem?_append_right (by omega)] at hi
        by_cases h4 : i - prose.length - (s2l "```" ++ body).length < 3
        · rw [hlen2] at h4 h3
          omega
        · rw [List.getElem?_append_right (by
            have h5 : (s2l "```").length = 3 := rfl
            rw [hlen2] at h3 h4
            omega)] at hi
          have : '`' ∈ json := by
            rcases List.getElem?_eq_some.mp hi with ⟨hj2, hget⟩
            exact hget ▸ List.getElem_mem _
          exact absurd (hj _ this rfl) (by simp)

theorem t3_occurrence (prose body json : List Char)
    (hpro : ∀ ch ∈ prose, ch ≠ '`')
    (hbody : ∀ ch ∈ body, ch ≠ '`')
    (hbne : body ≠ [])
    (hj : ∀ ch ∈ json, ch ≠ '`') :
    ∀ j, hasPrefixL (s2l "```")
        ((prose ++ (s2l "```" ++ (body ++ (s2l "```" ++ json)))).drop j) = true →
      j = prose.length ∨ j = prose.length + 3 + body.length := by
  intro j hpre
  have ht3 : s2l "```" = ['`'] ++ (['`'] ++ ['`']) := rfl
  rw [ht3, hasPrefixL_append, hasPrefixL_append, Bool.and_eq_true, Bool.and_eq_true] at hpre
  rcases hpre with ⟨hp0, hp1, hp2⟩
  rw [hasPrefixL_single, List.head?_drop] at hp0
  rw [List.drop_drop, hasPrefixL_single, List.head?_drop] at hp1
  rw [List.drop_drop, List.drop_drop, hasPrefixL_single, List.head?_drop] at hp2
  have h0 := tick_positions prose body json hpro hbody hj _ hp0
  have h1 := tick_positions prose body json hpro hbody hj _ hp1
  have h2 := tick_positions prose body json hpro hbody hj _ hp2
  have hB : 0 < body.length := by
    cases body with
    | nil => exact absurd rfl hbne
    | cons _ _ => simp
  have hL : (['`'] : List Char).length = 1 := rfl
  rcases h0 with h0 | h0 | h0 | h0 | h0 | h0 <;>
    rcases h1 with h1 | h1 | h1 | h1 | h1 | h1 <;>
    rcases h2 with h2 | h2 | h2 | h2 | h2 | h2 <;>
    omega



theorem matchR_seq_lit_nil {L : List Char} {r : RE} {s : List Char} {cp : Caps}
    (h : hasPrefixL L s = false) : ∀ f, matchR f (RE.seq (.lit L) r) s cp = [] := by
  intro f
  cases f with
  | zero => rfl
  | succ f =>
    cases f with
    | zero => simp [matchR]
    | succ f' => simp [matchR, h]

theorem execFromAux_none {re : RE} {c : List Char}
    (hall : ∀ j : Nat, matchR (fuelFor re (c.drop j)) re (c.drop j) [] = []) :
    ∀ (k pos : Nat), execFromAux re c k pos = none := by
  intro k
  induction k with
  | zero => intro pos; rfl
  | succ k ih =>
    intro pos
    rw [execFromAux]
    split
    · rw [hall pos]
      simp only [List.head?_nil]
      exact ih (pos + 1)
    · rfl

theorem replaceAllRe_id {re : RE} {c : List Char} (repl : List Char)
    (hnone : execFrom re c 0 = none) : replaceAllRe re repl c = c := by
  rw [replaceAllRe, replaceAllAux, hnone]

theorem two_le_fuelFor (r : RE) (s : List Char) : 2 ≤ fuelFor r s := by
  have h : 1 * 2 ≤ (reSize r + 2) * (s.length + 2) := Nat.mul_le_mul (by omega) (by omega)
  rw [fuelFor]
  omega

theorem matchR_lit_starWs {L rest : List Char} {cp : Caps} {f : Nat} (hf : 2 ≤ f)
    (hrest : ∀ hd, rest.head? = some hd → isWsChar hd = false) :
    matchR f (RE.seq (.lit L) (.starG clsWs)) (L ++ rest) cp = [(rest, cp)] := by
  obtain ⟨f', rfl⟩ : ∃ f', f = f' + 2 := ⟨f - 2, by omega⟩
  have hpre : hasPrefixL L (L ++ rest) = true := hasPrefixL_append_self L rest
  have hdrop : (L ++ rest).drop L.length = rest := List.drop_left L rest
  show (matchR (f' + 1) (.lit L) (L ++ rest) cp).flatMap
      (fun r => matchR (f' + 1) (.starG clsWs) r.1 r.2) = _
  rw [show matchR (f' + 1) (.lit L) (L ++ rest) cp = [(rest, cp)] by
    simp [matchR, hpre, hdrop]]
  rw [List.flatMap_cons, List.flatMap_nil, List.append_nil]
  show (matchR f' clsWs rest cp).flatMap
      (fun q => if q.1.length < rest.length then matchR f' (.starG clsWs) q.1 q.2 else []) ++
      [(rest, cp)] = _
  rw [show matchR f' clsWs rest cp = [] by
    cases f' with
    | zero => rfl
    | succ f'' =>
      cases rest with
      | nil => rfl
      | cons hd tl => simp [matchR, hrest hd rfl]]
  rfl

theorem execFromAux_found {re : RE} {c : List Char} {i : Nat} {q : List Char × Caps}
    (hi : i ≤ c.length)
    (hq : (matchR (fuelFor re (c.drop i)) re (c.drop i) []).head? = some q)
    (hbefore : ∀ j, j < i → matchR (fuelFor re (c.drop j)) re (c.drop j) [] = []) :
    ∀ (k pos : Nat), pos ≤ i → i - pos < k →
      execFromAux re c k pos = some ⟨i, (c.length - i) - q.1.length, q.2⟩ := by
  intro k
  induction k with
  | zero => intro pos _ h; omega
  | succ k ih =>
    intro pos hpi hik
    by_cases hpe : pos = i
    · subst hpe
      rw [execFromAux, if_pos hi, hq]
    · rw [execFromAux, if_pos (by omega), hbefore pos (by omega)]
      simp only [List.head?_nil]
      exact ih (pos + 1) (by omega) (by omega)

theorem replaceAll_step {re : RE} {c : List Char} {m : MRes} {k : Nat} (repl : List Char)
    (hex : execFrom re c 0 = some m) (hlen : 0 < m.len) :
    replaceAllAux re repl (k + 1) c =
      c.take m.start ++ repl ++ replaceAllAux re repl k (c.drop (m.start + m.len)) := by
  rw [replaceAllAux, hex]
  show (if m.len = 0 then
      c.take m.start ++ repl ++ (c.drop m.start).take 1 ++
        replaceAllAux re repl k (c.drop (m.start + 1))
    else c.take m.start ++ repl ++ replaceAllAux re repl k (c.drop (m.start + m.len))) = _
  rw [if_neg (by omega)]

theorem replace2_scenario (prose body json : List Char)
    (hpro : ∀ ch ∈ prose, ch ≠ '`')
    (hbody : ∀ ch ∈ body, ch ≠ '`')
    (hbodyW : ∀ hd, body.head? = some hd → isWsChar hd = false)
    (hbne : body ≠ [])
    (hjt : ∀ ch ∈ json, ch ≠ '`')
    (hjH : json.head? = some '\x7b') :
    replaceAllRe fenceRegex [] (prose ++ (s2l "```" ++ (body ++ (s2l "```" ++ json)))) =
      prose ++ (body ++ json) := by
  have hfr : fenceRegex = RE.seq (.lit (s2l "```")) (.starG clsWs) := rfl
  have ht3l : (s2l "```").length = 3 := rfl
  have hjson_ws : ∀ hd, json.head? = some hd → isWsChar hd = false := by
    intro hd hh
    rw [hjH] at hh
    cases hh
    rfl
  have hbody_cons : ∀ hd, (body ++ (s2l "```" ++ json)).head? = some hd →
      isWsChar hd = false := by
    intro hd hh
    cases body with
    | nil => exact absurd rfl hbne
    | cons b0 bt =>
      simp only [List.cons_append, List.head?_cons, Option.some_inj] at hh
      subst hh
      exact hbodyW b0 rfl
  have hlen_resp : (prose ++ (s2l "```" ++ (body ++ (s2l "```" ++ json)))).length =
      prose.length + 3 + body.length + 3 + json.length := by
    simp only [List.length_append, ht3l]
    omega
  have hql : (body ++ (s2l "```" ++ json)).length = body.length + 3 + json.length := by
    simp only [List.length_append, ht3l]
    omega
  have hdropP : (prose ++ (s2l "```" ++ (body ++ (s2l "```" ++ json)))).drop prose.length =
      s2l "```" ++ (body ++ (s2l "```" ++ json)) := List.drop_left _ _
  have hm1 : (matchR
      (fuelFor fenceRegex
        ((prose ++ (s2l "```" ++ (body ++ (s2l "```" ++ json)))).drop prose.length))
      fenceRegex
      ((prose ++ (s2l "```" ++ (body ++ (s2l "```" ++ json)))).drop prose.length) []).head? =
      some (body ++ (s2l "```" ++ json), []) := by
    rw [hdropP, hfr, matchR_lit_starWs (two_le_fuelFor _ _) hbody_cons]
    rfl
  have hbefore1 : ∀ j, j < prose.length →
      matchR (fuelFor fenceRegex
        ((prose ++ (s2l "```" ++ (body ++ (s2l "```" ++ json)))).drop j)) fenceRegex
        ((prose ++ (s2l "```" ++ (body ++ (s2l "```" ++ json)))).drop j) [] = [] := by
    intro j hj
    rw [hfr]
    exact matchR_seq_lit_nil
      (@hasPrefixL_false_left_seg (s2l "```") '`' prose _ rfl hpro j hj) _
  have hi1 : prose.length ≤ (prose ++ (s2l "```" ++ (body ++ (s2l "```" ++ json)))).length := by
    rw [hlen_resp]
    omega
  have hex1 : execFrom fenceRegex (prose ++ (s2l "```" ++ (body ++ (s2l "```" ++ json)))) 0 =
      some ⟨prose.length, 3, []⟩ := by
    have hfound := execFromAux_found hi1 hm1 hbefore1
      ((prose ++ (s2l "```" ++ (body ++ (s2l "```" ++ json)))).length + 1) 0
      (Nat.zero_le _) (by rw [Nat.sub_zero, hlen_resp]; omega)
    rw [execFrom, Nat.sub_zero, hfound]
    have harith : ((prose ++ (s2l "```" ++ (body ++ (s2l "```" ++ json)))).length -
        prose.length) - (body ++ (s2l "```" ++ json), ([] : Caps)).1.length = 3 := by
      show ((prose ++ (s2l "```" ++ (body ++ (s2l "```" ++ json)))).length -
        prose.length) - (body ++ (s2l "```" ++ json)).length = 3
      rw [hlen_resp, hql]
      omega
    rw [harith]
  have hdrop13 : (prose ++ (s2l "```" ++ (body ++ (s2l "```" ++ json)))).drop
      (prose.length + 3) = body ++ (s2l "```" ++ json) := by
    rw [drop_append_len_add 3, show (3 : Nat) = (s2l "```").length from rfl, List.drop_left]
  -- second phase, on body ++ (s2l "```" ++ json)
  have hdropB : (body ++ (s2l "```" ++ json)).drop body.length = s2l "```" ++ json :=
    List.drop_left _ _
  have hm2 : (matchR
      (fuelFor fenceRegex ((body ++ (s2l "```" ++ json)).drop body.length)) fenceRegex
      ((body ++ (s2l "```" ++ json)).drop body.length) []).head? = some (json, []) := by
    rw [hdropB, hfr, matchR_lit_starWs (two_le_fuelFor _ _) hjson_ws]
    rfl
  have hbefore2 : ∀ j, j < body.length →
      matchR (fuelFor fenceRegex ((body ++ (s2l "```" ++ json)).drop j)) fenceRegex
        ((body ++ (s2l "```" ++ json)).drop j) [] = [] := by
    intro j hj
    rw [hfr]
    exact matchR_seq_lit_nil
      (@hasPrefixL_false_left_seg (s2l "```") '`' body _ rfl hbody j hj) _
  have hi2 : body.length ≤ (body ++ (s2l "```" ++ json)).length := by
    rw [hql]
    omega
  have hex2 : execFrom fenceRegex (body ++ (s2l "```" ++ json)) 0 =
      some ⟨body.length, 3, []⟩ := by
    have hfound := execFromAux_found hi2 hm2 hbefore2
      ((body ++ (s2l "```" ++ json)).length + 1) 0
      (Nat.zero_le _) (by rw [Nat.sub_zero, hql]; omega)
    rw [execFrom, Nat.sub_zero, hfound]
    have harith : ((body ++ (s2l "```" ++ json)).length - body.length) -
        (json, ([] : Caps)).1.length = 3 := by
      show ((body ++ (s2l "```" ++ json)).length - body.length) - json.length = 3
      rw [hql]
      omega
    rw [harith]
  have hdrop23 : (body ++ (s2l "```" ++ json)).drop (body.length + 3) = json := by
    rw [drop_append_len_add 3, show (3 : Nat) = (s2l "```").length from rfl, List.drop_left]
  -- third phase: no fence in json
  have hid3 : ∀ k, replaceAllAux fenceRegex [] k json = json := by
    intro k
    cases k with
    | zero => rfl
    | succ k3 =>
      have hnone : execFrom fenceRegex json 0 = none := by
        rw [execFrom]
        exact execFromAux_none
          (fun j => by
            rw [hfr]
            exact matchR_seq_lit_nil
              (@hasPrefixL_false_of_tickfree (s2l "```") '`' json rfl hjt j) _) _ _
      rw [replaceAllAux, hnone]
  -- assemble
  obtain ⟨k2, hk2⟩ : ∃ k2,
      (prose ++ (s2l "```" ++ (body ++ (s2l "```" ++ json)))).length = k2 + 1 :=
    ⟨(prose ++ (s2l "```" ++ (body ++ (s2l "```" ++ json)))).length - 1, by
      rw [hlen_resp]; omega⟩
  rw [replaceAllRe]
  rw [replaceAll_step [] hex1 (Nat.succ_pos 2)]
  show (prose ++ (s2l "```" ++ (body ++ (s2l "```" ++ json)))).take prose.length ++ [] ++
      replaceAllAux fenceRegex []
        (prose ++ (s2l "```" ++ (body ++ (s2l "```" ++ json)))).length
        ((prose ++ (s2l "```" ++ (body ++ (s2l "```" ++ json)))).drop (prose.length + 3)) = _
  rw [List.take_left, hdrop13, hk2]
  rw [replaceAll_step [] hex2 (Nat.succ_pos 2)]
  show prose ++ [] ++ ((body ++ (s2l "```" ++ json)).take body.length ++ [] ++
      replaceAllAux fenceRegex [] k2
        ((body ++ (s2l "```" ++ json)).drop (body.length + 3))) = _
  rw [List.take_left, hdrop23, hid3]
  simp

theorem fenceJson_no_match (prose body json : List Char)
    (hpro : ∀ ch ∈ prose, ch ≠ '`')
    (hbody : ∀ ch ∈ body, ch ≠ '`')
    (hbodyJ : ∀ hd, body.head? = some hd → hd ≠ 'j')
    (hbne : body ≠ [])
    (hjt : ∀ ch ∈ json, ch ≠ '`')
    (hjH : json.head? = some '\x7b') :
    replaceAllRe fenceJsonRegex []
      (prose ++ (s2l "```" ++ (body ++ (s2l "```" ++ json)))) =
      prose ++ (s2l "```" ++ (body ++ (s2l "```" ++ json))) := by
  have hfr : fenceJsonRegex = RE.seq (.lit (s2l "```json")) (.starG clsWs) := rfl
  have hsplit : s2l "```json" = s2l "```" ++ s2l "json" := rfl
  have hnoocc : ∀ j, hasPrefixL (s2l "```json")
      ((prose ++ (s2l "```" ++ (body ++ (s2l "```" ++ json)))).drop j) = false := by
    intro j
    rw [hsplit, hasPrefixL_append]
    cases ht : hasPrefixL (s2l "```")
        ((prose ++ (s2l "```" ++ (body ++ (s2l "```" ++ json)))).drop j) with
    | false => simp
    | true =>
      have hjq := t3_occurrence prose body json hpro hbody hbne hjt j ht
      have hjblock : hasPrefixL (s2l "json")
          (((prose ++ (s2l "```" ++ (body ++ (s2l "```" ++ json)))).drop j).drop
            (s2l "```").length) = false := by
        rw [List.drop_drop]
        rcases hjq with hjq | hjq
        · subst hjq
          have hd : prose.length + (s2l "```").length = prose.length + 3 := by
            rw [show (s2l "```").length = 3 from rfl]
          have hdrop13 : (prose ++ (s2l "```" ++ (body ++ (s2l "```" ++ json)))).drop
              (prose.length + 3) = body ++ (s2l "```" ++ json) := by
            rw [drop_append_len_add 3, show (3 : Nat) = (s2l "```").length from rfl,
              List.drop_left]
          rw [hd, hdrop13]
          · cases body with
            | nil => exact absurd rfl hbne
            | cons b0 bt =>
              have hb0 : b0 ≠ 'j' := hbodyJ b0 rfl
              show hasPrefixL ('j' :: s2l "son") (b0 :: (bt ++ (s2l "```" ++ json))) = false
              simp only [hasPrefixL, Bool.and_eq_false_iff]
              left
              simp [beq_iff_eq]
              intro hcon
              exact hb0 hcon.symm
        · subst hjq
          have hd : prose.length + 3 + body.length + (s2l "```").length =
              prose.length + (3 + (body.length + 3)) := by
            rw [show (s2l "```").length = 3 from rfl]
            omega
          rw [hd, drop_append_len_add, show (3 : Nat) + (body.length + 3) =
            (s2l "```").length + (body.length + 3) from rfl, drop_append_len_add,
            show body.length + 3 = body.length + (s2l "```").length from rfl,
            drop_append_len_add, List.drop_left]
          cases json with
          | nil => cases hjH
          | cons j0 jt =>
            have hj0 : j0 = '\x7b' := by simpa using hjH
            subst hj0
            show hasPrefixL ('j' :: s2l "son") ('\x7b' :: jt) = false
            simp only [hasPrefixL, show (('j' : Char) == '\x7b') = false from rfl,
              Bool.false_and]
      rw [hjblock]
      simp
  apply replaceAllRe_id
  rw [execFrom]
  exact execFromAux_none
    (fun j => by
      rw [hfr]
      exact matchR_seq_lit_nil (hnoocc j) _) _ _



theorem trimL_concat {json : List Char}
    (hjH : ∀ hd, json.head? = some hd → isWsChar hd = false) :
    ∀ u : List Char, ∃ w, trimL (u ++ json) = w ++ json ∧ ∀ ch ∈ w, ch ∈ u := by
  intro u
  induction u with
  | nil =>
    refine ⟨[], ?_, by simp⟩
    cases json with
    | nil => simp [trimL]
    | cons c cs => simp [trimL, List.dropWhile_cons, hjH c rfl]
  | cons c cs ih =>
    by_cases hc : isWsChar c = true
    · obtain ⟨w, hw, hsub⟩ := ih
      refine ⟨w, ?_, fun ch hm => List.mem_cons_of_mem _ (hsub ch hm)⟩
      simp only [List.cons_append, trimL, List.dropWhile_cons, hc, if_true]
      exact hw
    · refine ⟨c :: cs, ?_, fun ch hm => hm⟩
      simp [List.cons_append, trimL, List.dropWhile_cons, hc]

theorem trimR_append_last {x : List Char} {c : Char} (hc : isWsChar c = false) :
    trimR (x ++ [c]) = x ++ [c] := by
  rw [trimR, List.reverse_append, List.reverse_singleton, List.singleton_append]
  rw [show trimL (c :: x.reverse) = c :: x.reverse by
    simp [trimL, List.dropWhile_cons, hc]]
  simp

theorem idxOfChar_append {c : Char} {w t : List Char} (hw : ∀ ch ∈ w, ch ≠ c) :
    idxOfChar c (w ++ c :: t) = some w.length := by
  induction w with
  | nil => simp [idxOfChar]
  | cons d ds ih =>
    have hd : (d == c) = false := by
      simp [beq_iff_eq]
      exact hw d (List.mem_cons_self _ _)
    simp only [List.cons_append, idxOfChar, hd, List.append_eq]
    rw [ih (fun ch hm => hw ch (List.mem_cons_of_mem _ hm))]
    simp

theorem lastIdxOfChar_append {c : Char} (x : List Char) :
    lastIdxOfChar c (x ++ [c]) = some x.length := by
  rw [lastIdxOfChar, List.reverse_append, List.reverse_singleton, List.singleton_append]
  rw [show idxOfChar c (c :: x.reverse) = some 0 by simp [idxOfChar]]
  simp

theorem eq_dropLast_append {l : List Char} {c : Char} (h : l.getLast? = some c) :
    l = l.dropLast ++ [c] := by
  induction l using List.reverseRecOn with
  | nil => cases h
  | append_singleton xs x _ =>
    rw [List.getLast?_concat] at h
    have hx : x = c := by simpa using h
    subst hx
    rw [List.dropLast_concat]

/-- C5 (amended).  The older analyzer strips code fences, then parses the
substring from the first `\x7b` to the last `\x7d`.  For a response made of
leading prose, a fenced code block and a trailing JSON object, where the
prose and the fenced block contain no brace or backtick characters (the
counterexample above shows a braced code block derails the extraction),
exactly the trailing JSON object is extracted and parsed, everything else
being ignored; and for a response with no `\x7b`/`\x7d` pair the default
verdict is returned without throwing. -/
theorem verdict_extraction_scenario :
    (∀ (prose fenceBody json : List Char) (v : JsVal),
      (∀ ch ∈ prose, ch ≠ '\x7b' ∧ ch ≠ '\x7d' ∧ ch ≠ '`') →
      (∀ ch ∈ fenceBody, ch ≠ '\x7b' ∧ ch ≠ '\x7d' ∧ ch ≠ '`') →
      (∀ hd, fenceBody.head? = some hd → isWsChar hd = false ∧ hd ≠ 'j') →
      fenceBody ≠ [] →
      (∀ ch ∈ json, ch ≠ '`') →
      json.head? = some '\x7b' →
      json.getLast? = some '\x7d' →
      parseJson json = .ok v →
      analyzeFunctionForRefactoring
        (prose ++ (s2l "```" ++ (fenceBody ++ (s2l "```" ++ json)))) = v) ∧
    (∀ resp : List Char, ('\x7b' ∉ resp ∨ '\x7d' ∉ resp) →
      analyzeFunctionForRefactoring resp = defaultAnalysis) := by
  refine ⟨?_, fun resp h => analyzeFFR_default_of_no_brace h⟩
  intro prose body json v hpro hbody hbodyH hbne hjt hjH hjL hparse
  have h1 := fenceJson_no_match prose body json (fun ch hm => (hpro ch hm).2.2)
    (fun ch hm => (hbody ch hm).2.2) (fun hd hh => (hbodyH hd hh).2) hbne hjt hjH
  have h2 := replace2_scenario prose body json (fun ch hm => (hpro ch hm).2.2)
    (fun ch hm => (hbody ch hm).2.2) (fun hd hh => (hbodyH hd hh).1) hbne hjt hjH
  have hjws : ∀ hd, json.head? = some hd → isWsChar hd = false := by
    intro hd hh
    rw [hjH] at hh
    cases hh
    rfl
  obtain ⟨w, hw, hwsub⟩ := trimL_concat hjws (prose ++ body)
  have hwnb : ∀ ch ∈ w, ch ≠ '\x7b' := by
    intro ch hm
    rcases List.mem_append.mp (hwsub ch hm) with h | h
    · exact (hpro ch h).1
    · exact (hbody ch h).1
  have hjdec : json = json.dropLast ++ ['\x7d'] := eq_dropLast_append hjL
  obtain ⟨jt, hjcons⟩ : ∃ jt, json = '\x7b' :: jt := by
    cases json with
    | nil => cases hjH
    | cons a b =>
      have ha : a = '\x7b' := by simpa using hjH
      exact ⟨b, by rw [ha]⟩
  have hsplit2 : w ++ json = (w ++ json.dropLast) ++ ['\x7d'] := by
    rw [List.append_assoc, ← hjdec]
  have hclean : trimB (replaceAllRe fenceRegex [] (replaceAllRe fenceJsonRegex []
      (prose ++ (s2l "```" ++ (body ++ (s2l "```" ++ json)))))) = w ++ json := by
    rw [h1, h2, ← List.append_assoc, trimB, hw, hsplit2,
      trimR_append_last (show isWsChar '\x7d' = false from rfl), List.append_assoc, ← hjdec]
  have hidx : idxOfChar '\x7b' (w ++ json) = some w.length := by
    rw [hjcons]
    exact idxOfChar_append hwnb
  have hlast : lastIdxOfChar '\x7d' (w ++ json) = some (w.length + json.dropLast.length) := by
    rw [hsplit2, lastIdxOfChar_append]
    simp
  have hlenj : json.length = json.dropLast.length + 1 := by
    conv_lhs => rw [hjdec]
    simp
  have hslice : sliceN (w ++ json) w.length (w.length + json.dropLast.length + 1) = json := by
    rw [sliceN, List.drop_left]
    rw [show w.length + json.dropLast.length + 1 - w.length = json.dropLast.length + 1 by omega]
    rw [← hlenj, List.take_length]
  show (match idxOfChar '\x7b' (trimB (replaceAllRe fenceRegex []
        (replaceAllRe fenceJsonRegex []
          (prose ++ (s2l "```" ++ (body ++ (s2l "```" ++ json))))))),
      lastIdxOfChar '\x7d' (trimB (replaceAllRe fenceRegex []
        (replaceAllRe fenceJsonRegex []
          (prose ++ (s2l "```" ++ (body ++ (s2l "```" ++ json))))))) with
    | some st, some en =>
      match parseJson (sliceN (trimB (replaceAllRe fenceRegex []
          (replaceAllRe fenceJsonRegex []
            (prose ++ (s2l "```" ++ (body ++ (s2l "```" ++ json))))))) st (en + 1)) with
      | .ok v => v
      | .error _ => defaultAnalysis
    | _, _ => defaultAnalysis) = v
  rw [hclean, hidx, hlast]
  show (match parseJson (sliceN (w ++ json) w.length
      (w.length + json.dropLast.length + 1)) with
    | Except.ok u => u
    | Except.error _ => defaultAnalysis) = v
  rw [hslice, hparse]

/-- Witness for the amended C5 at a concrete response
`Result: `  ``` `code` ```  `\x7b"a": 1\x7d`. -/
theorem verdict_extraction_scenario_witness :
    ((∀ ch ∈ s2l "Result: ", ch ≠ '\x7b' ∧ ch ≠ '\x7d' ∧ ch ≠ '`') ∧
     (∀ ch ∈ s2l "code", ch ≠ '\x7b' ∧ ch ≠ '\x7d' ∧ ch ≠ '`') ∧
     (∀ hd, (s2l "code").head? = some hd → isWsChar hd = false ∧ hd ≠ 'j') ∧
     s2l "code" ≠ [] ∧
     (∀ ch ∈ s2l "\x7b\"a\": 1\x7d", ch ≠ '`') ∧
     (s2l "\x7b\"a\": 1\x7d").head? = some '\x7b' ∧
     (s2l "\x7b\"a\": 1\x7d").getLast? = some '\x7d' ∧
     parseJson (s2l "\x7b\"a\": 1\x7d") = .ok (.obj [(s2l "a", .num (s2l "1"))])) ∧
    analyzeFunctionForRefactoring
      (s2l "Result: " ++ (s2l "```" ++ (s2l "code" ++ (s2l "```" ++ s2l "\x7b\"a\": 1\x7d")))) =
      .obj [(s2l "a", .num (s2l "1"))] := by
  refine ⟨⟨by decide, by decide, by decide, by decide, by decide, by decide, by decide, rfl⟩, ?_⟩
  exact verdict_extraction_scenario.1 (s2l "Result: ") (s2l "code") (s2l "\x7b\"a\": 1\x7d")
    (.obj [(s2l "a", .num (s2l "1"))]) (by decide) (by decide) (by decide) (by decide)
    (by decide) (by decide) (by decide) rfl



/-- Witness for C1: on a concrete file the scanner returns the single
expected record, and the span facts follow by applying the theorem at that
member. -/
theorem scanner_sorted_nonoverlapping_witness :
    (⟨s2l "a", s2l "function a()\x7b\x7d", [], 3, 17,
        extractModuleContextCore (s2l "x; function a()\x7b\x7d") (Int.ofNat 3)⟩ : FunctionRec) ∈
      (extractFunctions (s2l "x; function a()\x7b\x7d")).functions ∧
    ((⟨s2l "a", s2l "function a()\x7b\x7d", [], 3, 17,
        extractModuleContextCore (s2l "x; function a()\x7b\x7d") (Int.ofNat 3)⟩ :
        FunctionRec).startIndex <
      (⟨s2l "a", s2l "function a()\x7b\x7d", [], 3, 17,
        extractModuleContextCore (s2l "x; function a()\x7b\x7d") (Int.ofNat 3)⟩ :
        FunctionRec).endIndex ∧
     (⟨s2l "a", s2l "function a()\x7b\x7d", [], 3, 17,
        extractModuleContextCore (s2l "x; function a()\x7b\x7d") (Int.ofNat 3)⟩ :
        FunctionRec).endIndex ≤ (s2l "x; function a()\x7b\x7d").length ∧
     (⟨s2l "a", s2l "function a()\x7b\x7d", [], 3, 17,
        extractModuleContextCore (s2l "x; function a()\x7b\x7d") (Int.ofNat 3)⟩ :
        FunctionRec).code =
       sliceN (s2l "x; function a()\x7b\x7d")
         (⟨s2l "a", s2l "function a()\x7b\x7d", [], 3, 17,
            extractModuleContextCore (s2l "x; function a()\x7b\x7d") (Int.ofNat 3)⟩ :
            FunctionRec).startIndex
         (⟨s2l "a", s2l "function a()\x7b\x7d", [], 3, 17,
            extractModuleContextCore (s2l "x; function a()\x7b\x7d") (Int.ofNat 3)⟩ :
            FunctionRec).endIndex) := by
  have hmem : (⟨s2l "a", s2l "function a()\x7b\x7d", [], 3, 17,
      extractModuleContextCore (s2l "x; function a()\x7b\x7d") (Int.ofNat 3)⟩ : FunctionRec) ∈
      (extractFunctions (s2l "x; function a()\x7b\x7d")).functions := by
    rw [show (extractFunctions (s2l "x; function a()\x7b\x7d")).functions =
      [⟨s2l "a", s2l "function a()\x7b\x7d", [], 3, 17,
        extractModuleContextCore (s2l "x; function a()\x7b\x7d") (Int.ofNat 3)⟩] from rfl]
    exact List.mem_singleton.mpr rfl
  exact ⟨hmem,
    (scanner_sorted_nonoverlapping (s2l "x; function a()\x7b\x7d")).2 _ hmem⟩


end RP
